import Mathlib

/-!
Shallow embedding of `lambda_handler.py`, a scheduled MySQL-dump backup
script with a three-tier retention policy over S3 object keys, together
with proofs about the retention engine, the artifact namer/parser pair
and the handler's error propagation.

Strings are embedded as `List Char` (named `Str`); the object store is a
list of keys in listing order; S3 prefix queries are `List.filter` with
`List.isPrefixOf`; Python exceptions are modelled by explicit
success/failure flags or `Except` results.
-/

set_option autoImplicit false

abbrev Str := List Char

/-! ### Decimal digits (CPython number formatting and parsing helpers) -/

/-- Character for one decimal digit (used by `%Y`, `%m`, `%d` formatting). -/
def digitChar : Nat → Char
  | 0 => '0' | 1 => '1' | 2 => '2' | 3 => '3' | 4 => '4'
  | 5 => '5' | 6 => '6' | 7 => '7' | 8 => '8' | 9 => '9'
  | _ => '*'

/-- Fuel-bounded helper for `natDigits` (structural recursion so that concrete
values reduce inside the kernel). -/
def natDigitsAux : Nat → Nat → Str
  | 0, _ => []
  | fuel + 1, n =>
    if n < 10 then [digitChar n]
    else natDigitsAux fuel (n / 10) ++ [digitChar (n % 10)]

/-- Decimal representation of a natural number, most significant digit first. -/
def natDigits (n : Nat) : Str := natDigitsAux (n + 1) n

theorem natDigitsAux_fuel : ∀ {a : Nat} {n : Nat} {b : Nat}, n < a → n < b →
    natDigitsAux a n = natDigitsAux b n := by
  intro a
  induction a with
  | zero => intro n b h1; omega
  | succ a ih =>
    intro n b h1 h2
    cases b with
    | zero => omega
    | succ b =>
      show (if n < 10 then [digitChar n] else natDigitsAux a (n / 10) ++ [digitChar (n % 10)])
        = (if n < 10 then [digitChar n] else natDigitsAux b (n / 10) ++ [digitChar (n % 10)])
      by_cases h : n < 10
      · rw [if_pos h, if_pos h]
      · rw [if_neg h, if_neg h]
        have hd : n / 10 < n := Nat.div_lt_self (by omega) (by omega)
        rw [ih (n := n / 10) (b := b) (by omega) (by omega)]

/-- The recursive unfolding of `natDigits`. -/
theorem natDigits_unfold (n : Nat) :
    natDigits n = if n < 10 then [digitChar n] else natDigits (n / 10) ++ [digitChar (n % 10)] := by
  show natDigitsAux (n + 1) n = _
  show (if n < 10 then [digitChar n] else natDigitsAux n (n / 10) ++ [digitChar (n % 10)]) = _
  by_cases h : n < 10
  · rw [if_pos h, if_pos h]
  · rw [if_neg h, if_neg h]
    have hd : n / 10 < n := Nat.div_lt_self (by omega) (by omega)
    rw [natDigitsAux_fuel (a := n) (n := n / 10) (b := n / 10 + 1) (by omega) (by omega)]
    rfl

/-- Numeric value of a digit character (as in CPython's strptime field conversion). -/
def charVal (c : Char) : Nat := c.toNat - 48

/-- Decimal value of a digit string. -/
def digitsToNat (s : Str) : Nat := s.foldl (fun a c => a * 10 + charVal c) 0

/-- Zero-padded two-digit field, as produced by strftime `%m`, `%d`, `%H`, `%M`, `%S`. -/
def pad2 (n : Nat) : Str := if n < 10 then '0' :: natDigits n else natDigits n

theorem charVal_digitChar {n : Nat} (h : n < 10) : charVal (digitChar n) = n := by
  interval_cases n <;> decide

theorem isDigit_digitChar {n : Nat} (h : n < 10) : (digitChar n).isDigit = true := by
  interval_cases n <;> decide

theorem natDigits_all_digit (n : Nat) : ∀ c ∈ natDigits n, c.isDigit = true := by
  induction n using Nat.strong_induction_on with
  | _ n ih =>
    rw [natDigits_unfold]
    split
    · intro c hc
      rcases List.mem_singleton.mp hc with rfl
      exact isDigit_digitChar (by omega)
    · intro c hc
      rcases List.mem_append.mp hc with h | h
      · exact ih (n / 10) (Nat.div_lt_self (by omega) (by omega)) c h
      · rcases List.mem_singleton.mp h with rfl
        exact isDigit_digitChar (Nat.mod_lt _ (by omega))

theorem natDigits_ne_nil (n : Nat) : natDigits n ≠ [] := by
  rw [natDigits_unfold]
  split
  · simp
  · simp

theorem digitsToNat_append (a b : Str) :
    digitsToNat (a ++ b) = b.foldl (fun x c => x * 10 + charVal c) (digitsToNat a) := by
  simp [digitsToNat, List.foldl_append]

theorem digitsToNat_natDigits (n : Nat) : digitsToNat (natDigits n) = n := by
  induction n using Nat.strong_induction_on with
  | _ n ih =>
    rw [natDigits_unfold]
    split
    · simp [digitsToNat, List.foldl, charVal_digitChar, *]
    · rw [digitsToNat_append, ih (n / 10) (Nat.div_lt_self (by omega) (by omega))]
      simp [List.foldl, charVal_digitChar (Nat.mod_lt n (by omega))]
      omega

theorem digitsToNat_cons_zero (s : Str) : digitsToNat ('0' :: s) = digitsToNat s := by
  simp [digitsToNat, List.foldl, charVal]

theorem digitsToNat_pad2 (n : Nat) : digitsToNat (pad2 n) = n := by
  unfold pad2
  split
  · rw [digitsToNat_cons_zero, digitsToNat_natDigits]
  · exact digitsToNat_natDigits n

theorem natDigits_inj {a b : Nat} (h : natDigits a = natDigits b) : a = b := by
  have := digitsToNat_natDigits a
  rw [h, digitsToNat_natDigits] at this
  omega

theorem pad2_inj {a b : Nat} (h : pad2 a = pad2 b) : a = b := by
  have := digitsToNat_pad2 a
  rw [h, digitsToNat_pad2] at this
  omega

theorem pad2_all_digit (n : Nat) : ∀ c ∈ pad2 n, c.isDigit = true := by
  unfold pad2
  split
  · intro c hc
    rcases List.mem_cons.mp hc with rfl | h
    · decide
    · exact natDigits_all_digit n c h
  · exact natDigits_all_digit n

theorem not_mem_of_all_digit {s : Str} (hs : ∀ c ∈ s, c.isDigit = true)
    {c : Char} (hc : c.isDigit = false) : c ∉ s := by
  intro h
  rw [hs c h] at hc
  cases hc

theorem natDigits_length_le {n b : Nat} {k : Nat} (hb : n ≤ b)
    (hlen : b < 10 ^ k) (hk : 1 ≤ k) : (natDigits n).length ≤ k := by
  induction k generalizing n b with
  | zero => omega
  | succ k ih =>
    rw [natDigits_unfold]
    split
    · simp
    · rename_i hn
      have hk1 : 1 ≤ k := by
        by_contra h
        have : k = 0 := by omega
        subst this
        simp at hlen
        omega
      have : (natDigits (n / 10)).length ≤ k := by
        refine ih (b := b / 10) (Nat.div_le_div_right hb) ?_ hk1
        have := Nat.pow_succ 10 k
        omega
      simp [List.length_append]
      omega

theorem natDigits_length_ge {n : Nat} {k : Nat} (hb : 10 ^ k ≤ n) :
    k + 1 ≤ (natDigits n).length := by
  induction k generalizing n with
  | zero =>
    have := natDigits_ne_nil n
    cases h : natDigits n with
    | nil => exact absurd h this
    | cons a l => simp
  | succ k ih =>
    rw [natDigits_unfold]
    split
    · exfalso
      have : 10 ^ (k + 1) ≥ 10 := by
        calc 10 = 10 ^ 1 := by norm_num
        _ ≤ 10 ^ (k + 1) := Nat.pow_le_pow_right (by omega) (by omega)
      omega
    · have h10 : 10 ^ k ≤ n / 10 := by
        rw [Nat.le_div_iff_mul_le (by omega)]
        calc 10 ^ k * 10 = 10 ^ (k + 1) := by rw [Nat.pow_succ]
        _ ≤ n := hb
      have := ih h10
      simp [List.length_append]
      omega

theorem natDigits_length_four {n : Nat} (h1 : 1000 ≤ n) (h2 : n ≤ 9999) :
    (natDigits n).length = 4 := by
  have ha := natDigits_length_le (k := 4) h2 (by norm_num) (by omega)
  have hb := natDigits_length_ge (k := 3) (by simpa using h1)
  omega

theorem pad2_length {n : Nat} (h : n ≤ 99) : (pad2 n).length = 2 := by
  unfold pad2
  split
  · have ha := natDigits_length_le (n := n) (b := 9) (k := 1) (by omega) (by norm_num) (by omega)
    have hb := natDigits_ne_nil n
    simp
    cases hs : natDigits n with
    | nil => exact absurd hs hb
    | cons a l =>
      rw [hs] at ha
      simp at ha
      simp [ha]
  · have ha := natDigits_length_le (n := n) (b := 99) (k := 2) h (by norm_num) (by omega)
    have hb := natDigits_length_ge (n := n) (k := 1) (by omega)
    omega

/-! ### Calendar model (CPython `datetime.date`, proleptic Gregorian) -/

/-- Calendar date, mirroring `datetime.date` (year, month, day). -/
structure Date where
  year : Nat
  month : Nat
  day : Nat
deriving DecidableEq, Repr

/-- Gregorian leap-year test, as in CPython `calendar.isleap`. -/
def isLeap (y : Nat) : Bool := y % 4 == 0 && (y % 100 != 0 || y % 400 == 0)

/-- Number of days in a month (months outside 1..12 never arise for valid dates). -/
def daysInMonth (y m : Nat) : Nat :=
  if m = 2 then (if isLeap y then 29 else 28)
  else if m = 4 ∨ m = 6 ∨ m = 9 ∨ m = 11 then 30
  else 31

/-- Days in year `y` before the first of month `m` (CPython `_days_before_month`). -/
def daysBeforeMonth (y : Nat) : Nat → Nat
  | 0 => 0
  | 1 => 0
  | m + 1 => daysBeforeMonth y m + daysInMonth y m

/-- Days before January 1 of year `y` (CPython `_days_before_year`). -/
def daysBeforeYear (y : Nat) : Nat :=
  365 * (y - 1) + (y - 1) / 4 + (y - 1) / 400 - (y - 1) / 100

/-- Proleptic Gregorian ordinal of a date; `⟨1,1,1⟩` has ordinal 1,
matching CPython `date.toordinal`. -/
def toOrdinal (dt : Date) : Nat :=
  daysBeforeYear dt.year + daysBeforeMonth dt.year dt.month + dt.day

/-- ISO weekday index with Monday = 0, matching CPython `date.weekday()`. -/
def weekday (dt : Date) : Nat := (toOrdinal dt + 6) % 7

/-- Valid calendar date (the range invariant `datetime.date` enforces). -/
def Date.Valid (dt : Date) : Prop :=
  1 ≤ dt.year ∧ 1 ≤ dt.month ∧ dt.month ≤ 12 ∧ 1 ≤ dt.day ∧ dt.day ≤ daysInMonth dt.year dt.month

instance (dt : Date) : Decidable dt.Valid := by
  unfold Date.Valid
  infer_instance

/-- The calendar day immediately before `dt` (one step of `timedelta(days=1)`
subtraction on valid dates). -/
def predDate (dt : Date) : Date :=
  if 1 < dt.day then ⟨dt.year, dt.month, dt.day - 1⟩
  else if 1 < dt.month then ⟨dt.year, dt.month - 1, daysInMonth dt.year (dt.month - 1)⟩
  else ⟨dt.year - 1, 12, 31⟩

/-- Date `k` days earlier, mirroring `date - timedelta(days=k)`. -/
def subDays (dt : Date) (k : Nat) : Date := predDate^[k] dt

theorem daysInMonth_ge (y m : Nat) : 28 ≤ daysInMonth y m := by
  unfold daysInMonth
  split
  · split <;> omega
  · split <;> omega

theorem daysInMonth_le (y m : Nat) : daysInMonth y m ≤ 31 := by
  unfold daysInMonth
  split
  · split <;> omega
  · split <;> omega

theorem predDate_valid {dt : Date} (h : dt.Valid) (hy : 2 ≤ dt.year) :
    (predDate dt).Valid ∧ dt.year - 1 ≤ (predDate dt).year := by
  obtain ⟨h1, h2, h3, h4, h5⟩ := h
  unfold predDate
  split
  · refine ⟨⟨h1, h2, h3, ?_, ?_⟩, ?_⟩
    · show 1 ≤ dt.day - 1
      omega
    · show dt.day - 1 ≤ daysInMonth dt.year dt.month
      omega
    · show dt.year - 1 ≤ dt.year
      omega
  · split
    · have hge := daysInMonth_ge dt.year (dt.month - 1)
      refine ⟨⟨h1, ?_, ?_, ?_, ?_⟩, ?_⟩
      · show 1 ≤ dt.month - 1
        omega
      · show dt.month - 1 ≤ 12
        omega
      · show 1 ≤ daysInMonth dt.year (dt.month - 1)
        omega
      · exact le_refl _
      · show dt.year - 1 ≤ dt.year
        omega
    · have h31 : daysInMonth (dt.year - 1) 12 = 31 := by
        unfold daysInMonth
        norm_num
      refine ⟨⟨?_, ?_, ?_, ?_, ?_⟩, le_refl _⟩
      · show 1 ≤ dt.year - 1
        omega
      · show (1 : Nat) ≤ 12
        omega
      · show (12 : Nat) ≤ 12
        omega
      · show (1 : Nat) ≤ 31
        omega
      · show (31 : Nat) ≤ daysInMonth (dt.year - 1) 12
        omega

theorem subDays_valid {dt : Date} {k : Nat} (h : dt.Valid) (hy : k + 1 ≤ dt.year) :
    (subDays dt k).Valid ∧ dt.year - k ≤ (subDays dt k).year := by
  induction k with
  | zero => exact ⟨h, by simpa [subDays] using le_refl dt.year⟩
  | succ k ih =>
    have ⟨hv, hge⟩ := ih (by omega)
    have h2 : 2 ≤ (subDays dt k).year := by omega
    have hp := predDate_valid hv h2
    have heq : subDays dt (k + 1) = predDate (subDays dt k) := by
      rw [subDays, subDays, Function.iterate_succ_apply']
    rw [heq]
    exact ⟨hp.1, by have := hp.2; omega⟩

theorem iterPred_same_month {k : Nat} {y m d : Nat} (h : k < d) :
    predDate^[k] ⟨y, m, d⟩ = ⟨y, m, d - k⟩ := by
  induction k generalizing d with
  | zero => simp
  | succ k ih =>
    rw [Function.iterate_succ_apply]
    have hp : predDate ⟨y, m, d⟩ = ⟨y, m, d - 1⟩ := by
      unfold predDate
      simp only
      rw [if_pos (by omega)]
    rw [hp, ih (by omega)]
    congr 1
    omega

/-- Stepping back from the first of a month lands on the last day of the
previous month. -/
theorem predDate_first {y m : Nat} (hm : 1 ≤ m) (hy : 1 ≤ y) :
    predDate ⟨y, m, 1⟩ =
      if 1 < m then ⟨y, m - 1, daysInMonth y (m - 1)⟩ else ⟨y - 1, 12, daysInMonth (y - 1) 12⟩ := by
  unfold predDate
  simp only
  rw [if_neg (by omega)]
  split
  · rfl
  · simp [daysInMonth]

theorem toOrdinal_mk (y m d : Nat) :
    toOrdinal ⟨y, m, d⟩ = daysBeforeYear y + daysBeforeMonth y m + d := rfl

theorem daysBeforeMonth_succ (y m : Nat) (h : 1 ≤ m) :
    daysBeforeMonth y (m + 1) = daysBeforeMonth y m + daysInMonth y m := by
  match m, h with
  | m + 1, _ => rfl

theorem daysBeforeMonth_year (y : Nat) :
    daysBeforeMonth y 12 + daysInMonth y 12 = 365 + (if isLeap y then 1 else 0) := by
  simp [daysBeforeMonth, daysInMonth]
  split <;> omega

theorem daysBeforeYear_succ (m : Nat) :
    daysBeforeYear (m + 2) = daysBeforeYear (m + 1) + 365 + (if isLeap (m + 1) then 1 else 0) := by
  have hiff : isLeap (m + 1) = true ↔
      ((m + 1) % 4 = 0 ∧ ((m + 1) % 100 ≠ 0 ∨ (m + 1) % 400 = 0)) := by
    simp [isLeap]
  have h4 := Nat.succ_div m 4
  have h100 := Nat.succ_div m 100
  have h400 := Nat.succ_div m 400
  unfold daysBeforeYear
  simp only [Nat.add_sub_cancel, show m + 2 - 1 = m + 1 from by omega]
  rw [h4, h100, h400]
  clear h4 h100 h400
  cases hL : isLeap (m + 1) with
  | false =>
    have hnot : ¬((m + 1) % 4 = 0 ∧ ((m + 1) % 100 ≠ 0 ∨ (m + 1) % 400 = 0)) := by
      rw [← hiff, hL]
      simp
    clear hiff
    rw [if_neg (by simp : ¬(false = true))]
    by_cases hd4 : 4 ∣ (m + 1)
    · have ha : (m + 1) % 4 = 0 := by omega
      have hcon : ¬((m + 1) % 100 ≠ 0 ∨ (m + 1) % 400 = 0) := fun hc => hnot ⟨ha, hc⟩
      push_neg at hcon
      clear hnot
      have d100 : 100 ∣ (m + 1) := by omega
      have nd400 : ¬(400 ∣ (m + 1)) := by omega
      rw [if_pos hd4, if_pos d100, if_neg nd400]
      omega
    · clear hnot
      have nd100 : ¬(100 ∣ (m + 1)) := fun hc => hd4 (dvd_trans (by norm_num) hc)
      have nd400 : ¬(400 ∣ (m + 1)) := fun hc => hd4 (dvd_trans (by norm_num) hc)
      rw [if_neg hd4, if_neg nd100, if_neg nd400]
      omega
  | true =>
    obtain ⟨ha, hb⟩ := hiff.mp hL
    clear hiff
    rw [if_pos rfl]
    have d4 : 4 ∣ (m + 1) := by omega
    rw [if_pos d4]
    rcases hb with hb | hb
    · have nd400 : ¬(400 ∣ (m + 1)) := by
        intro hc
        have : (100 : Nat) ∣ (m + 1) := dvd_trans (by norm_num) hc
        omega
      have nd100 : ¬(100 ∣ (m + 1)) := by omega
      rw [if_neg nd100, if_neg nd400]
      omega
    · have d400 : 400 ∣ (m + 1) := by omega
      have d100 : (100 : Nat) ∣ (m + 1) := dvd_trans (by norm_num) d400
      rw [if_pos d100, if_pos d400]
      omega

/-- Stepping one day back decrements the CPython ordinal, on valid dates after
year 1. -/
theorem toOrdinal_predDate {dt : Date} (h : dt.Valid) (hy : 2 ≤ dt.year) :
    toOrdinal (predDate dt) + 1 = toOrdinal dt := by
  obtain ⟨y, m, d⟩ := dt
  obtain ⟨h1, h2, h3, h4, h5⟩ := h
  simp only at h1 h2 h3 h4 h5 hy
  unfold predDate
  simp only
  by_cases hd : 1 < d
  · rw [if_pos hd, toOrdinal_mk, toOrdinal_mk]
    omega
  · rw [if_neg hd]
    by_cases hm : 1 < m
    · rw [if_pos hm, toOrdinal_mk, toOrdinal_mk]
      have : m - 1 + 1 = m := by omega
      have hsucc := daysBeforeMonth_succ y (m - 1) (by omega)
      rw [this] at hsucc
      omega
    · rw [if_neg hm, toOrdinal_mk, toOrdinal_mk]
      have hm1 : m = 1 := by omega
      have hd1 : d = 1 := by omega
      subst hm1 hd1
      obtain ⟨k, rfl⟩ : ∃ k, y = k + 2 := ⟨y - 2, by omega⟩
      have hy12 := daysBeforeMonth_year (k + 1)
      have h31 : daysInMonth (k + 1) 12 = 31 := by
        unfold daysInMonth
        norm_num
      rw [h31] at hy12
      have hysucc := daysBeforeYear_succ k
      have hjan : daysBeforeMonth (k + 2) 1 = 0 := rfl
      simp only [show k + 2 - 1 = k + 1 from by omega, hjan]
      cases hL : isLeap (k + 1) <;> rw [hL] at hy12 hysucc <;> norm_num at hy12 hysucc <;> omega

/-- Going back `k` days subtracts `k` from the ordinal (valid start, enough
room in the year count). -/
theorem toOrdinal_subDays {dt : Date} {k : Nat} (h : dt.Valid) (hy : k + 1 ≤ dt.year) :
    toOrdinal (subDays dt k) + k = toOrdinal dt := by
  induction k with
  | zero => simp [subDays]
  | succ k ih =>
    have hvk := subDays_valid h (k := k) (by omega)
    have heq : subDays dt (k + 1) = predDate (subDays dt k) := by
      rw [subDays, subDays, Function.iterate_succ_apply']
    have hstep := toOrdinal_predDate hvk.1 (by omega)
    rw [heq]
    have := ih (by omega)
    omega

/-! ### Korean weekday names (`DAYS_OF_THE_WEEK` in the source) -/

/-- `DAYS_OF_THE_WEEK = ['월', '화', '수', '목', '금', '토', '일']`, indexed by
`date.weekday()` (Monday = 0). -/
def DAYS_OF_THE_WEEK : List Str := [['월'], ['화'], ['수'], ['목'], ['금'], ['토'], ['일']]

/-- `DAYS_OF_THE_WEEK[date.weekday()]` as used in `delete_keys_last_months`. -/
def weekdayName (dt : Date) : Str := DAYS_OF_THE_WEEK.getD (weekday dt) []

/-! ### strftime-style formatting (`get_now`, `clean_up` boundary strings) -/

/-- strftime `%Y-%m-%d` (the tier-2 `weeks_prefix` and the date half of
`get_now`); glibc does not zero-pad `%Y`, so the year prints unpadded. -/
def ymdStr (dt : Date) : Str :=
  natDigits dt.year ++ '-' :: pad2 dt.month ++ '-' :: pad2 dt.day

/-- strftime `%Y-%m-` (the tier-3 `month_prefix`). -/
def ymStr (dt : Date) : Str :=
  natDigits dt.year ++ '-' :: pad2 dt.month ++ ['-']

/-- Time of day to the second, as carried by `get_now`'s timestamp. -/
structure TimeOfDay where
  hour : Nat
  minute : Nat
  second : Nat
deriving DecidableEq, Repr

/-- strftime `%H:%M:%S`, the time half of `get_now`'s format. -/
def hmsStr (t : TimeOfDay) : Str :=
  pad2 t.hour ++ ':' :: pad2 t.minute ++ ':' :: pad2 t.second

/-- strftime `%Y-%m-%d_%H:%M:%S` — the `now` string produced by `get_now`. -/
def nowStr (dt : Date) (t : TimeOfDay) : Str := ymdStr dt ++ '_' :: hmsStr t

/-- `PATH_TEMPLATE = '{base_dir}/{db_host}/{db_name}/{file}'` instantiated. -/
def pathTemplate (base_dir db_host db_name file : Str) : Str :=
  base_dir ++ '/' :: db_host ++ '/' :: db_name ++ '/' :: file

/-- Storage key of one backup artifact: `PATH_TEMPLATE` applied to
`{now}.{exp}`, exactly as `save_file_to_local`/`backup` build the S3 key. -/
def makeKey (root db_host db_name : Str) (dt : Date) (t : TimeOfDay) (ext : Str) : Str :=
  pathTemplate root db_host db_name (nowStr dt t ++ '.' :: ext)

/-! ### Key parsing (`os.path.split`, `os.path.splitext`, `split('_')`,
`strptime('%Y-%m-%d')`) as performed by `delete_keys_last_months` -/

/-- `os.path.split`: split at the last `'/'`; the head keeps no trailing
slashes unless it consists only of slashes (posixpath semantics). -/
def posixSplit (p : Str) : Str × Str :=
  let tl := (p.reverse.takeWhile (fun c => c ≠ '/')).reverse
  let hdRaw := p.take (p.length - tl.length)
  let hd :=
    if hdRaw.isEmpty || hdRaw.all (fun c => c = '/') then hdRaw
    else (hdRaw.reverse.dropWhile (fun c => c = '/')).reverse
  (hd, tl)

/-- Root part of `os.path.splitext` on a basename: strip from the last `'.'`,
except when every character before that dot is itself a dot (then the whole
name is the root, as posixpath treats leading dots). -/
def splitExtRoot (s : Str) : Str :=
  let extLen := (s.reverse.takeWhile (fun c => c ≠ '.')).length
  if extLen = s.length then s
  else
    let root := s.take (s.length - extLen - 1)
    if root.all (fun c => c = '.') then s else root

/-- Python `str.split(sep)` for a one-character separator. -/
def splitOnChar (c : Char) : Str → List Str
  | [] => [[]]
  | x :: xs =>
    let r := splitOnChar c xs
    if x = c then [] :: r
    else
      match r with
      | h :: t => (x :: h) :: t
      | [] => [[x]]

/-- One numeric strptime field: at most `maxLen` digits, nonempty, all digits
(the regex fragment `\d{1,maxLen}` of CPython's `_strptime`). -/
def parseIntField (maxLen : Nat) (s : Str) : Option Nat :=
  if s ≠ [] ∧ s.length ≤ maxLen ∧ s.all Char.isDigit then some (digitsToNat s) else none

/-- The strptime `%Y` field: CPython's `_strptime` compiles `%Y` to the regex
`\d\d\d\d`, so exactly four digits are required (a three-digit year raises
`ValueError`). -/
def parseYearField (s : Str) : Option Nat :=
  if s.length = 4 ∧ s.all Char.isDigit then some (digitsToNat s) else none

/-- `datetime.strptime(s, "%Y-%m-%d").date()`: exactly three dash-separated
digit fields (year exactly 4 digits, month and day 1 or 2), and the resulting
date must be a valid `datetime.date` (else `ValueError`). -/
def parseDate (s : Str) : Option Date :=
  match splitOnChar '-' s with
  | [ys, ms, ds] =>
    match parseYearField ys, parseIntField 2 ms, parseIntField 2 ds with
    | some y, some m, some d =>
      if 1 ≤ y ∧ 1 ≤ m ∧ m ≤ 12 ∧ 1 ≤ d ∧ d ≤ daysInMonth y m then some ⟨y, m, d⟩ else none
    | _, _, _ => none
  | _ => none

/-- The full decomposition `delete_keys_last_months` performs on a key:
`os.path.split`, `os.path.splitext`, `filename.split('_')` into exactly two
parts, and `strptime` on the date part. Returns the directory part together
with the parsed date and the raw time field, or `none` where Python raises
`ValueError`. -/
def parse_key (key : Str) : Str × Option (Date × Str) :=
  let sp := posixSplit key
  let filename := splitExtRoot sp.2
  match splitOnChar '_' filename with
  | [dPart, tPart] =>
    match parseDate dPart with
    | some dt => (sp.1, some (dt, tPart))
    | none => (sp.1, none)
  | _ => (sp.1, none)

/-- Created-at date that the retention engine recovers from a key (`none`
where the Python code raises `ValueError`). -/
def parseKeyDate (key : Str) : Option Date :=
  match (parse_key key).2 with
  | some (dt, _) => some dt
  | none => none

/-! ### Retention passes (`clean_up` and its inner functions)

The object store is a list of keys in listing order; `s3_bucket.objects.filter(Prefix=p)`
is `List.filter (p.isPrefixOf ·)`. A `delete` call may raise, which is modelled
by an oracle `fail : Str → Bool` telling which keys' deletes fail; `noFail`
is the run in which every delete succeeds. A pass returns the keys it deleted
and an `ok` flag that is `false` exactly when Python would raise out of it. -/

/-- Outcome of one deletion pass: keys actually deleted, in order, and whether
the pass completed without raising. -/
structure PassResult where
  deleted : List Str
  ok : Bool
deriving DecidableEq, Repr

/-- Delete oracle for a run where every `delete()` call succeeds. -/
def noFail : Str → Bool := fun _ => false

/-- Delete every key of the list in order, stopping with an exception at the
first failing delete (the tail of `delete_keys_last_weeks`' loop). -/
def deleteAll (fail : Str → Bool) : List Str → PassResult
  | [] => ⟨[], true⟩
  | k :: ks =>
    if fail k then ⟨[], false⟩
    else
      let r := deleteAll fail ks
      ⟨k :: r.deleted, r.ok⟩

/-- `delete_keys_last_weeks` on an already prefix-filtered listing: skip the
first object (`hour is 0`), delete every later one. -/
def delete_keys_last_weeks (fail : Str → Bool) : List Str → PassResult
  | [] => ⟨[], true⟩
  | _first :: rest => deleteAll fail rest

/-- `delete_keys_last_months` on an already prefix-filtered listing: parse each
key's date (raising `ValueError` on failure, modelled by `ok := false`), keep
keys whose weekday name equals `day_of_the_week`, delete the rest. -/
def delete_keys_last_months (fail : Str → Bool) (day_of_the_week : Str) :
    List Str → PassResult
  | [] => ⟨[], true⟩
  | k :: ks =>
    match parseKeyDate k with
    | none => ⟨[], false⟩
    | some dt =>
      if weekdayName dt = day_of_the_week then delete_keys_last_months fail day_of_the_week ks
      else if fail k then ⟨[], false⟩
      else
        let r := delete_keys_last_months fail day_of_the_week ks
        ⟨k :: r.deleted, r.ok⟩

/-- State threaded through `clean_up`'s loop over `DATABASE_LIST`: the keys
still in the bucket (in listing order), the keys deleted so far, and whether
any exception has been raised. -/
structure CleanState where
  store : List Str
  deleted : List Str
  ok : Bool
deriving DecidableEq, Repr

/-- Body of `clean_up`'s `for db in DATABASE_LIST` loop. Each database is a
`(host, name)` pair; for each one the weeks pass runs on the day-prefix
listing, then the months pass on the month-prefix listing of what remains.
An exception stops all later work (the `for` loop does not catch). -/
def cleanUpDbs (fail : Str → Bool) (day_of_the_week : Str) (weeksPfxFile monthPfxFile : Str) :
    List (Str × Str) → CleanState → CleanState
  | [], st => st
  | (host, name) :: rest, st =>
    if st.ok = false then st
    else
      let wPfx := pathTemplate [] host name weeksPfxFile
      let r1 := delete_keys_last_weeks fail (st.store.filter (wPfx.isPrefixOf ·))
      let store1 := st.store.filter (fun k => decide (k ∉ r1.deleted))
      let st1 : CleanState := ⟨store1, st.deleted ++ r1.deleted, r1.ok⟩
      if r1.ok = false then st1
      else
        let mPfx := pathTemplate [] host name monthPfxFile
        let r2 := delete_keys_last_months fail day_of_the_week (store1.filter (mPfx.isPrefixOf ·))
        let store2 := store1.filter (fun k => decide (k ∉ r2.deleted))
        let st2 : CleanState := ⟨store2, st1.deleted ++ r2.deleted, r2.ok⟩
        cleanUpDbs fail day_of_the_week weeksPfxFile monthPfxFile rest st2

/-- `clean_up(now)`: compute `weeks_prefix = (now - 1 week).strftime('%Y-%m-%d')`
and `month_prefix = (now - 4 weeks).strftime('%Y-%m-')` once, then run both
passes for every configured database. `now` is the parsed date component of
the `now` string (`datetime.strptime(now, ...).date()`). -/
def clean_up (fail : Str → Bool) (databases : List (Str × Str)) (day_of_the_week : Str)
    (now : Date) (store : List Str) : CleanState :=
  let a_weeks_ago := subDays now 7
  let a_month_ago := subDays now 28
  let weeksPfxFile := ymdStr a_weeks_ago
  let monthPfxFile := ymStr a_month_ago
  cleanUpDbs fail day_of_the_week weeksPfxFile monthPfxFile databases ⟨store, [], true⟩

/-! ### Orchestrator (`backup`, `lambda_handler`, `error_report`) -/

/-- `backup(now)`: one dump-and-upload step per database, each of which can
raise (mysqldump/S3 are external, so each step's outcome is an input);
returns `True` when the loop finishes. -/
def backup_run (uploads : List (Except Str Unit)) : Except Str Bool :=
  match uploads with
  | [] => .ok true
  | .error e :: _ => .error e
  | .ok _ :: rest => backup_run rest

/-- `clean_up` as the handler sees it: `True` on completion, or the raised
exception. -/
def clean_up_run (fail : Str → Bool) (databases : List (Str × Str)) (day_of_the_week : Str)
    (now : Date) (store : List Str) : Except Str Bool :=
  if (clean_up fail databases day_of_the_week now store).ok then .ok true
  else .error (['V', 'a', 'l', 'u', 'e', 'E', 'r', 'r', 'o', 'r'])

/-- One call to `error_report` (the Jandi notification): the context the
handler forwards on failure. -/
structure FailureReport where
  now : Str
  event : Str
  exc : Str
deriving DecidableEq, Repr

/-- `lambda_handler(event, context)`: run `backup(now)` then `clean_up(now)`;
on any exception call `error_report` with the full context and then
`raise exc`; otherwise return `{'statusCode': 200, 'body':
json.dumps("success")}`. The two phases' outcomes are inputs; `clean_up` is
only reached when `backup` did not raise, which the `match` order reproduces.
The notification's own outcome `rep` is an input too: `error_report` performs
`urlopen`, which can raise (`urllib.error.URLError`) inside the `except`
block, in which case that exception propagates before `raise exc` runs and
masks the original one. The first component records the `error_report`
invocation with its arguments; the invocation happens whether or not the
notification call itself raises. -/
def lambda_handler (now event : Str) (bk cu : Except Str Bool) (rep : Except Str Nat) :
    List FailureReport × Except Str (Nat × Str) :=
  match bk with
  | .error e =>
    match rep with
    | .error re => ([⟨now, event, e⟩], .error re)
    | .ok _ => ([⟨now, event, e⟩], .error e)
  | .ok _ =>
    match cu with
    | .error e =>
      match rep with
      | .error re => ([⟨now, event, e⟩], .error re)
      | .ok _ => ([⟨now, event, e⟩], .error e)
    | .ok _ => ([], .ok (200, '"' :: ('s' :: 'u' :: 'c' :: 'c' :: 'e' :: 's' :: 's' :: ['"'])))

/-! ### Lemmas about the string helpers -/

theorem splitOnChar_ne_nil (c : Char) : ∀ s : Str, splitOnChar c s ≠ []
  | [] => by simp [splitOnChar]
  | x :: xs => by
    unfold splitOnChar
    split
    · simp
    · cases hr : splitOnChar c xs <;> simp

theorem splitOnChar_cons_self (c : Char) (s : Str) :
    splitOnChar c (c :: s) = [] :: splitOnChar c s := by
  simp [splitOnChar]

theorem splitOnChar_cons_ne {c x : Char} (h : x ≠ c) (s : Str) :
    splitOnChar c (x :: s) =
      (x :: (splitOnChar c s).headD []) :: (splitOnChar c s).tail := by
  have hdef : splitOnChar c (x :: s) =
      if x = c then [] :: splitOnChar c s
      else
        match splitOnChar c s with
        | h :: t => (x :: h) :: t
        | [] => [[x]] := rfl
  cases hr : splitOnChar c s with
  | nil => exact absurd hr (splitOnChar_ne_nil c s)
  | cons a t =>
    rw [hdef, if_neg h, hr]
    simp

theorem splitOnChar_append_sep {c : Char} {a : Str} (h : c ∉ a) (b : Str) :
    splitOnChar c (a ++ c :: b) = a :: splitOnChar c b := by
  induction a with
  | nil => simp [splitOnChar_cons_self]
  | cons x xs ih =>
    have hx : x ≠ c := fun he => h (he ▸ List.mem_cons_self x xs)
    rw [List.cons_append, splitOnChar_cons_ne hx,
      ih (fun hm => h (List.mem_cons_of_mem _ hm))]
    simp

theorem splitOnChar_of_not_mem {c : Char} {s : Str} (h : c ∉ s) : splitOnChar c s = [s] := by
  induction s with
  | nil => rfl
  | cons x xs ih =>
    have hx : x ≠ c := fun he => h (he ▸ List.mem_cons_self x xs)
    rw [splitOnChar_cons_ne hx, ih (fun hm => h (List.mem_cons_of_mem _ hm))]
    simp

theorem splitOnChar_append_left {c : Char} {a : Str} (h : c ∉ a) (b : Str) :
    splitOnChar c (a ++ b) =
      (a ++ (splitOnChar c b).headD []) :: (splitOnChar c b).tail := by
  induction a with
  | nil =>
    cases hr : splitOnChar c b with
    | nil => exact absurd hr (splitOnChar_ne_nil c b)
    | cons p t => simp [hr]
  | cons x xs ih =>
    have hx : x ≠ c := fun he => h (he ▸ List.mem_cons_self x xs)
    rw [List.cons_append, splitOnChar_cons_ne hx,
      ih (fun hm => h (List.mem_cons_of_mem _ hm))]
    simp

theorem splitOnChar_eq_single {c : Char} {s p : Str}
    (h : splitOnChar c s = [p]) : p = s ∧ c ∉ s := by
  induction s generalizing p with
  | nil =>
    simp [splitOnChar] at h
    exact ⟨h, List.not_mem_nil c⟩
  | cons x xs ih =>
    by_cases hx : x = c
    · subst hx
      rw [splitOnChar_cons_self] at h
      have := splitOnChar_ne_nil x xs
      cases hr : splitOnChar x xs with
      | nil => exact absurd hr this
      | cons a t =>
        rw [hr] at h
        simp at h
    · rw [splitOnChar_cons_ne hx] at h
      cases hr : splitOnChar c xs with
      | nil => exact absurd hr (splitOnChar_ne_nil c xs)
      | cons a t =>
        rw [hr] at h
        simp at h
        obtain ⟨hp, rfl⟩ := h
        have := ih (p := a) (by rw [hr])
        obtain ⟨rfl, hnm⟩ := this
        refine ⟨by simp [hp], ?_⟩
        intro hm
        rcases List.mem_cons.mp hm with he | hm
        · exact hx he.symm
        · exact hnm hm

theorem append_sep_pfx {c : Char} {a₁ a₂ r₁ r₂ : Str} (h₁ : c ∉ a₁) (h₂ : c ∉ a₂)
    (h : a₁ ++ c :: r₁ <+: a₂ ++ c :: r₂) : a₁ = a₂ ∧ r₁ <+: r₂ := by
  induction a₁ generalizing a₂ with
  | nil =>
    cases a₂ with
    | nil =>
      simp only [List.nil_append] at h
      exact ⟨rfl, (List.cons_prefix_cons.mp h).2⟩
    | cons y ys =>
      exfalso
      simp only [List.nil_append, List.cons_append] at h
      have := (List.cons_prefix_cons.mp h).1
      exact h₂ (this ▸ List.mem_cons_self y ys)
  | cons x xs ih =>
    cases a₂ with
    | nil =>
      exfalso
      simp only [List.nil_append, List.cons_append] at h
      have := (List.cons_prefix_cons.mp h).1
      exact h₁ (this ▸ List.mem_cons_self x xs)
    | cons y ys =>
      simp only [List.cons_append] at h
      obtain ⟨rfl, hrest⟩ := List.cons_prefix_cons.mp h
      have := ih (fun hm => h₁ (List.mem_cons_of_mem _ hm))
        (fun hm => h₂ (List.mem_cons_of_mem _ hm)) hrest
      exact ⟨by rw [this.1], this.2⟩

theorem append_sep_eq {c : Char} {a₁ a₂ r₁ r₂ : Str} (h₁ : c ∉ a₁) (h₂ : c ∉ a₂)
    (h : a₁ ++ c :: r₁ = a₂ ++ c :: r₂) : a₁ = a₂ ∧ r₁ = r₂ := by
  have hpfx : a₁ ++ c :: r₁ <+: a₂ ++ c :: r₂ := by rw [h]
  have hp := append_sep_pfx h₁ h₂ hpfx
  obtain ⟨rfl, -⟩ := hp
  exact ⟨rfl, by simpa using List.append_cancel_left h⟩

theorem takeWhile_append_all {p : Char → Bool} {a : Str} (h : ∀ x ∈ a, p x = true) (b : Str) :
    (a ++ b).takeWhile p = a ++ b.takeWhile p := by
  induction a with
  | nil => rfl
  | cons x xs ih =>
    rw [List.cons_append, List.takeWhile_cons, h x (List.mem_cons_self x xs),
      ih (fun y hy => h y (List.mem_cons_of_mem _ hy))]
    simp

theorem takeWhile_cons_false {p : Char → Bool} {x : Char} (h : p x = false) (b : Str) :
    (x :: b).takeWhile p = [] := by
  rw [List.takeWhile_cons, h]
  rfl

theorem exists_last_sep {c : Char} {t : Str} (h : c ∈ t) :
    ∃ t₁ t₂, t = t₁ ++ c :: t₂ ∧ c ∉ t₂ := by
  induction t with
  | nil => cases h
  | cons x xs ih =>
    by_cases hxs : c ∈ xs
    · obtain ⟨a, b, rfl, hb⟩ := ih hxs
      exact ⟨x :: a, b, rfl, hb⟩
    · rcases List.mem_cons.mp h with rfl | hm
      · exact ⟨[], xs, rfl, hxs⟩
      · exact absurd hm hxs

theorem posixSplit_snd {D fn : Str} (h : '/' ∉ fn) : (posixSplit (D ++ '/' :: fn)).2 = fn := by
  unfold posixSplit
  simp only
  rw [List.reverse_append, List.reverse_cons]
  have h1 : ∀ x ∈ fn.reverse, (fun c => decide (c ≠ '/')) x = true := by
    intro x hx
    simp only [decide_eq_true_eq]
    intro he
    exact h (he ▸ (List.mem_reverse.mp hx))
  rw [List.append_assoc]
  simp only [List.singleton_append]
  rw [takeWhile_append_all h1, takeWhile_cons_false (by simp)]
  simp

theorem posixSplit_fst {D fn : Str} {c : Char} (hfn : '/' ∉ fn) (hc : c ≠ '/') :
    (posixSplit ((D ++ [c]) ++ '/' :: fn)).1 = D ++ [c] := by
  have hsnd := posixSplit_snd (D := D ++ [c]) hfn
  unfold posixSplit at hsnd ⊢
  simp only at hsnd ⊢
  rw [hsnd]
  have hlen : ((D ++ [c]) ++ '/' :: fn).length - fn.length = (D ++ [c]).length + 1 := by
    simp [List.length_append]
    omega
  rw [hlen]
  have htake : ((D ++ [c]) ++ '/' :: fn).take ((D ++ [c]).length + 1) = (D ++ [c]) ++ ['/'] := by
    rw [List.take_append 1]
    simp
  rw [htake]
  have hne : ((D ++ [c]) ++ ['/']).isEmpty = false := by
    simp [List.isEmpty_iff]
  have hnall : ((D ++ [c]) ++ ['/']).all (fun x => decide (x = '/')) = false := by
    rw [List.all_eq_false]
    exact ⟨c, by simp, by simpa using hc⟩
  rw [hne, hnall]
  simp only [Bool.or_self, Bool.false_or, if_neg (by simp : ¬false = true)]
  rw [List.reverse_append, List.reverse_append]
  simp only [List.reverse_cons, List.reverse_nil, List.nil_append, List.singleton_append]
  rw [List.dropWhile_cons]
  simp only [decide_True, if_true]
  rw [List.dropWhile_cons]
  simp only [decide_eq_true_eq, if_neg hc]
  simp

theorem splitExtRoot_no_dot {s : Str} (h : '.' ∉ s) : splitExtRoot s = s := by
  unfold splitExtRoot
  have h1 : ∀ x ∈ s.reverse, (fun c => decide (c ≠ '.')) x = true := by
    intro x hx
    simp only [decide_eq_true_eq]
    intro he
    exact h (he ▸ (List.mem_reverse.mp hx))
  rw [List.takeWhile_eq_self_iff.mpr h1]
  simp

theorem splitExtRoot_dot {a e : Str} (ha : ∃ x ∈ a, x ≠ '.') (he : '.' ∉ e) :
    splitExtRoot (a ++ '.' :: e) = a := by
  unfold splitExtRoot
  have h1 : ∀ x ∈ e.reverse, (fun c => decide (c ≠ '.')) x = true := by
    intro x hx
    simp only [decide_eq_true_eq]
    intro hee
    exact he (hee ▸ (List.mem_reverse.mp hx))
  rw [List.reverse_append, List.reverse_cons, List.append_assoc]
  simp only [List.singleton_append]
  rw [takeWhile_append_all h1, takeWhile_cons_false (by simp)]
  simp only [List.append_nil, List.length_reverse]
  have hane : a ≠ [] := by
    obtain ⟨x, hx, -⟩ := ha
    exact List.ne_nil_of_mem hx
  have hlen : (a ++ '.' :: e).length = a.length + 1 + e.length := by
    simp [List.length_append]
    omega
  rw [if_neg (by omega)]
  have hroot : (a ++ '.' :: e).take ((a ++ '.' :: e).length - e.length - 1) = a := by
    have : (a ++ '.' :: e).length - e.length - 1 = a.length := by omega
    rw [this]
    exact List.take_left a ('.' :: e)
  rw [hroot]
  rw [if_neg]
  intro hall
  rw [List.all_eq_true] at hall
  obtain ⟨x, hx, hxne⟩ := ha
  exact hxne (by simpa using hall x hx)

theorem splitExtRoot_keeps_pfx {p fn : Str} (hpfx : p <+: fn) (hdot : '.' ∉ p)
    (hnd : ∃ x ∈ p, x ≠ '.') : p <+: splitExtRoot fn := by
  obtain ⟨t, rfl⟩ := hpfx
  by_cases hdt : '.' ∈ t
  · obtain ⟨t₁, t₂, rfl, ht₂⟩ := exists_last_sep hdt
    have hassoc : p ++ (t₁ ++ '.' :: t₂) = (p ++ t₁) ++ '.' :: t₂ := by
      simp [List.append_assoc]
    rw [hassoc, splitExtRoot_dot ?_ ht₂]
    · exact List.prefix_append p t₁
    · obtain ⟨x, hx, hxne⟩ := hnd
      exact ⟨x, List.mem_append_left _ hx, hxne⟩
  · have hnm : '.' ∉ p ++ t := by
      intro hm
      rcases List.mem_append.mp hm with hm | hm
      · exact hdot hm
      · exact hdt hm
    rw [splitExtRoot_no_dot hnm]
    exact List.prefix_append p t

/-! ### Character classes of the formatted strings -/

theorem mem_ymdStr {c : Char} {dt : Date} (h : c ∈ ymdStr dt) : c.isDigit = true ∨ c = '-' := by
  unfold ymdStr at h
  rcases List.mem_append.mp h with h | h
  · rcases List.mem_append.mp h with h | h
    · exact Or.inl (natDigits_all_digit _ c h)
    · rcases List.mem_cons.mp h with rfl | h
      · exact Or.inr rfl
      · exact Or.inl (pad2_all_digit _ c h)
  · rcases List.mem_cons.mp h with rfl | h
    · exact Or.inr rfl
    · exact Or.inl (pad2_all_digit _ c h)

theorem mem_ymStr {c : Char} {dt : Date} (h : c ∈ ymStr dt) : c.isDigit = true ∨ c = '-' := by
  unfold ymStr at h
  rcases List.mem_append.mp h with h | h
  · rcases List.mem_append.mp h with h | h
    · exact Or.inl (natDigits_all_digit _ c h)
    · rcases List.mem_cons.mp h with rfl | h
      · exact Or.inr rfl
      · exact Or.inl (pad2_all_digit _ c h)
  · rcases List.mem_singleton.mp h with rfl
    exact Or.inr rfl

theorem mem_hmsStr {c : Char} {t : TimeOfDay} (h : c ∈ hmsStr t) : c.isDigit = true ∨ c = ':' := by
  unfold hmsStr at h
  rcases List.mem_append.mp h with h | h
  · rcases List.mem_append.mp h with h | h
    · exact Or.inl (pad2_all_digit _ c h)
    · rcases List.mem_cons.mp h with rfl | h
      · exact Or.inr rfl
      · exact Or.inl (pad2_all_digit _ c h)
  · rcases List.mem_cons.mp h with rfl | h
    · exact Or.inr rfl
    · exact Or.inl (pad2_all_digit _ c h)

theorem not_mem_ymdStr {c : Char} {dt : Date} (h1 : c.isDigit = false) (h2 : c ≠ '-') :
    c ∉ ymdStr dt := by
  intro hm
  rcases mem_ymdStr hm with h | h
  · rw [h1] at h
    cases h
  · exact h2 h

theorem not_mem_ymStr {c : Char} {dt : Date} (h1 : c.isDigit = false) (h2 : c ≠ '-') :
    c ∉ ymStr dt := by
  intro hm
  rcases mem_ymStr hm with h | h
  · rw [h1] at h
    cases h
  · exact h2 h

theorem not_mem_hmsStr {c : Char} {t : TimeOfDay} (h1 : c.isDigit = false) (h2 : c ≠ ':') :
    c ∉ hmsStr t := by
  intro hm
  rcases mem_hmsStr hm with h | h
  · rw [h1] at h
    cases h
  · exact h2 h

theorem ymdStr_has_non_dot (dt : Date) : ∃ x ∈ ymdStr dt, x ≠ '.' := by
  cases hd : natDigits dt.year with
  | nil => exact absurd hd (natDigits_ne_nil dt.year)
  | cons a l =>
    have ha : a ∈ natDigits dt.year := by
      rw [hd]
      exact List.mem_cons_self a l
    have : a.isDigit = true := natDigits_all_digit _ a ha
    refine ⟨a, List.mem_append_left _ (List.mem_append_left _ ha), ?_⟩
    intro he
    rw [he] at this
    cases this

theorem ymStr_has_non_dot (dt : Date) : ∃ x ∈ ymStr dt, x ≠ '.' := by
  cases hd : natDigits dt.year with
  | nil => exact absurd hd (natDigits_ne_nil dt.year)
  | cons a l =>
    have ha : a ∈ natDigits dt.year := by
      rw [hd]
      exact List.mem_cons_self a l
    have : a.isDigit = true := natDigits_all_digit _ a ha
    refine ⟨a, List.mem_append_left _ (List.mem_append_left _ ha), ?_⟩
    intro he
    rw [he] at this
    cases this

theorem dash_not_mem_natDigits (n : Nat) : '-' ∉ natDigits n :=
  not_mem_of_all_digit (natDigits_all_digit n) (by decide)

theorem dash_not_mem_pad2 (n : Nat) : '-' ∉ pad2 n :=
  not_mem_of_all_digit (pad2_all_digit n) (by decide)

/-! ### Parsing lemmas -/

theorem parseIntField_some {maxLen : Nat} {s : Str} {n : Nat}
    (h : parseIntField maxLen s = some n) :
    n = digitsToNat s ∧ s ≠ [] ∧ s.length ≤ maxLen ∧ s.all Char.isDigit = true := by
  unfold parseIntField at h
  split at h
  · rename_i hc
    exact ⟨(Option.some.inj h).symm, hc.1, hc.2.1, hc.2.2⟩
  · cases h

theorem parseYearField_some {s : Str} {n : Nat} (h : parseYearField s = some n) :
    n = digitsToNat s ∧ s.length = 4 ∧ s.all Char.isDigit = true := by
  unfold parseYearField at h
  split at h
  · rename_i hc
    exact ⟨(Option.some.inj h).symm, hc.1, hc.2⟩
  · cases h

theorem parseYearField_natDigits {n : Nat} (h1 : 1000 ≤ n) (h2 : n ≤ 9999) :
    parseYearField (natDigits n) = some n := by
  unfold parseYearField
  rw [if_pos]
  · rw [digitsToNat_natDigits]
  · refine ⟨natDigits_length_four h1 h2, ?_⟩
    rw [List.all_eq_true]
    exact natDigits_all_digit n

theorem parseIntField_pad2 {n : Nat} (h : n ≤ 99) :
    parseIntField 2 (pad2 n) = some n := by
  unfold parseIntField
  rw [if_pos]
  · rw [digitsToNat_pad2]
  · have hne : pad2 n ≠ [] := by
      unfold pad2
      split
      · simp
      · exact natDigits_ne_nil n
    refine ⟨hne, by rw [pad2_length h], ?_⟩
    rw [List.all_eq_true]
    exact pad2_all_digit n

theorem parseDate_some_dest {s : Str} {cd : Date} (h : parseDate s = some cd) :
    ∃ ys ms ds, splitOnChar '-' s = [ys, ms, ds] ∧
      parseYearField ys = some cd.year ∧ parseIntField 2 ms = some cd.month ∧
      parseIntField 2 ds = some cd.day ∧ cd.Valid := by
  unfold parseDate at h
  split at h
  · rename_i ys ms ds hsp
    split at h
    · rename_i y m d hy hm hd
      split at h
      · rename_i hcond
        obtain rfl := Option.some.inj h
        exact ⟨ys, ms, ds, hsp, hy, hm, hd,
          ⟨hcond.1, hcond.2.1, hcond.2.2.1, hcond.2.2.2.1, hcond.2.2.2.2⟩⟩
      · cases h
    · cases h
  · cases h

theorem parseDate_valid {s : Str} {cd : Date} (h : parseDate s = some cd) : cd.Valid := by
  obtain ⟨-, -, -, -, -, -, -, hv⟩ := parseDate_some_dest h
  exact hv

/-- Formatting a valid date with `%Y-%m-%d` and parsing it back recovers the
date for four-digit years: glibc `%Y` prints the year unpadded, and `strptime`'s
`%Y` accepts exactly four digits, so the round trip needs `1000 ≤ year ≤ 9999`. -/
theorem parseDate_ymdStr {dt : Date} (h : dt.Valid) (hk : 1000 ≤ dt.year)
    (hy : dt.year ≤ 9999) :
    parseDate (ymdStr dt) = some dt := by
  obtain ⟨h1, h2, h3, h4, h5⟩ := h
  have hd99 : dt.day ≤ 99 := by
    have := daysInMonth_le dt.year dt.month
    omega
  unfold parseDate ymdStr
  rw [show natDigits dt.year ++ '-' :: pad2 dt.month ++ '-' :: pad2 dt.day
      = natDigits dt.year ++ '-' :: (pad2 dt.month ++ '-' :: pad2 dt.day) from by simp,
    splitOnChar_append_sep (dash_not_mem_natDigits _),
    splitOnChar_append_sep (dash_not_mem_pad2 _),
    splitOnChar_of_not_mem (dash_not_mem_pad2 _)]
  simp only
  rw [parseYearField_natDigits hk hy, parseIntField_pad2 (by omega), parseIntField_pad2 hd99]
  simp only
  rw [if_pos ⟨h1, h2, h3, h4, h5⟩]

/-- A string that parses under `%Y-%m-%d` and starts with the canonical
rendering of a valid date is that exact rendering. -/
theorem parseDate_of_ymd_pfx {D cd : Date} {s : Str} (hD : D.Valid)
    (hpfx : ymdStr D <+: s) (h : parseDate s = some cd) : cd = D := by
  obtain ⟨hv1, hv2, hv3, hv4, hv5⟩ := hD
  obtain ⟨t, rfl⟩ := hpfx
  obtain ⟨ys, ms, ds, hsp, hy, hm, hd, -⟩ := parseDate_some_dest h
  have hassoc : ymdStr D ++ t =
      natDigits D.year ++ '-' :: (pad2 D.month ++ '-' :: (pad2 D.day ++ t)) := by
    unfold ymdStr
    simp
  rw [hassoc, splitOnChar_append_sep (dash_not_mem_natDigits _),
    splitOnChar_append_sep (dash_not_mem_pad2 _)] at hsp
  have h1 : ys = natDigits D.year := by
    have := hsp
    simp at this
    exact this.1.symm
  have h2 : ms = pad2 D.month := by
    simp at hsp
    exact hsp.2.1.symm
  have h3 : splitOnChar '-' (pad2 D.day ++ t) = [ds] := by
    simp at hsp
    exact hsp.2.2
  obtain ⟨hds, -⟩ := splitOnChar_eq_single h3
  obtain ⟨hyv, -, -⟩ := parseYearField_some hy
  obtain ⟨hmv, -, -, -⟩ := parseIntField_some hm
  obtain ⟨hdv, -, hdlen, -⟩ := parseIntField_some hd
  have hd2 : (pad2 D.day).length = 2 := by
    have := daysInMonth_le D.year D.month
    exact pad2_length (by omega)
  have ht : t = [] := by
    rw [hds, List.length_append, hd2] at hdlen
    exact List.length_eq_zero.mp (by omega : t.length = 0)
  subst ht
  simp only [List.append_nil] at hds
  have hyear : cd.year = D.year := by
    rw [hyv, h1, digitsToNat_natDigits]
  have hmonth : cd.month = D.month := by
    rw [hmv, h2, digitsToNat_pad2]
  have hday : cd.day = D.day := by
    rw [hdv, hds, digitsToNat_pad2]
  cases cd
  cases D
  simp only at hyear hmonth hday
  simp [hyear, hmonth, hday]

/-- A string that parses under `%Y-%m-%d` and starts with a `%Y-%m-` month
rendering has that year and month. -/
theorem parseDate_of_ym_pfx {D cd : Date} {s : Str}
    (hpfx : ymStr D <+: s) (h : parseDate s = some cd) :
    cd.year = D.year ∧ cd.month = D.month := by
  obtain ⟨t, rfl⟩ := hpfx
  obtain ⟨ys, ms, ds, hsp, hy, hm, hd, -⟩ := parseDate_some_dest h
  have hassoc : ymStr D ++ t =
      natDigits D.year ++ '-' :: (pad2 D.month ++ '-' :: t) := by
    unfold ymStr
    simp
  rw [hassoc, splitOnChar_append_sep (dash_not_mem_natDigits _),
    splitOnChar_append_sep (dash_not_mem_pad2 _)] at hsp
  have h1 : ys = natDigits D.year := by
    simp at hsp
    exact hsp.1.symm
  have h2 : ms = pad2 D.month := by
    simp at hsp
    exact hsp.2.1.symm
  obtain ⟨hyv, -, -⟩ := parseYearField_some hy
  obtain ⟨hmv, -, -, -⟩ := parseIntField_some hm
  constructor
  · rw [hyv, h1, digitsToNat_natDigits]
  · rw [hmv, h2, digitsToNat_pad2]

/-- Destructor for a successful `parseKeyDate`. -/
theorem parseKeyDate_some_dest {key : Str} {cd : Date} (h : parseKeyDate key = some cd) :
    ∃ dPart tPart, splitOnChar '_' (splitExtRoot (posixSplit key).2) = [dPart, tPart] ∧
      parseDate dPart = some cd := by
  unfold parseKeyDate parse_key at h
  simp only at h
  rcases hsp : splitOnChar '_' (splitExtRoot (posixSplit key).2) with - | ⟨a, - | ⟨b, - | ⟨c, r⟩⟩⟩ <;>
    rw [hsp] at h <;> simp only at h
  case cons.cons.nil =>
    rcases hpd : parseDate a with - | dt <;> rw [hpd] at h <;> simp only at h
    · cases h
    · obtain rfl := Option.some.inj h
      exact ⟨a, b, rfl, hpd⟩
  all_goals cases h

theorem parseKeyDate_valid {key : Str} {cd : Date} (h : parseKeyDate key = some cd) :
    cd.Valid := by
  obtain ⟨dPart, tPart, -, hpd⟩ := parseKeyDate_some_dest h
  exact parseDate_valid hpd

/-- On a well-formed key `dir ++ '/' :: fn`, a successful parse whose filename
starts with the canonical `%Y-%m-%d` rendering of a valid date recovers exactly
that date. -/
theorem parseKeyDate_pfx_ymd {g fn : Str} {D cd : Date} (hfn : '/' ∉ fn) (hD : D.Valid)
    (hpfx : ymdStr D <+: fn) (h : parseKeyDate (g ++ '/' :: fn) = some cd) : cd = D := by
  obtain ⟨dPart, tPart, hsp, hpd⟩ := parseKeyDate_some_dest h
  rw [posixSplit_snd hfn] at hsp
  have hroot : ymdStr D <+: splitExtRoot fn :=
    splitExtRoot_keeps_pfx hpfx (not_mem_ymdStr (by decide) (by decide)) (ymdStr_has_non_dot D)
  obtain ⟨t', ht'⟩ := hroot
  rw [ht'.symm, splitOnChar_append_left (not_mem_ymdStr (by decide) (by decide))] at hsp
  simp at hsp
  exact parseDate_of_ymd_pfx hD ⟨_, hsp.1⟩ hpd

/-- On a well-formed key `dir ++ '/' :: fn`, a successful parse whose filename
starts with a `%Y-%m-` month rendering yields a date in that year and month. -/
theorem parseKeyDate_pfx_ym {g fn : Str} {D cd : Date} (hfn : '/' ∉ fn)
    (hpfx : ymStr D <+: fn) (h : parseKeyDate (g ++ '/' :: fn) = some cd) :
    cd.year = D.year ∧ cd.month = D.month := by
  obtain ⟨dPart, tPart, hsp, hpd⟩ := parseKeyDate_some_dest h
  rw [posixSplit_snd hfn] at hsp
  have hroot : ymStr D <+: splitExtRoot fn :=
    splitExtRoot_keeps_pfx hpfx (not_mem_ymStr (by decide) (by decide)) (ymStr_has_non_dot D)
  obtain ⟨t', ht'⟩ := hroot
  rw [ht'.symm, splitOnChar_append_left (not_mem_ymStr (by decide) (by decide))] at hsp
  simp at hsp
  exact parseDate_of_ym_pfx ⟨_, hsp.1⟩ hpd

/-! ### Characterizing the timedelta subtractions used by `clean_up` -/

theorem subDays_lt {y m d k : Nat} (h : k < d) : subDays ⟨y, m, d⟩ k = ⟨y, m, d - k⟩ :=
  iterPred_same_month h

/-- Going back `s` days from day `d` of a month, with `d ≤ s ≤ d + 27`, lands
in the immediately preceding calendar month. -/
theorem subDays_cross {y m d s : Nat} (hm : 1 ≤ m) (hy : 2 ≤ y) (hd1 : 1 ≤ d)
    (hsd : d ≤ s) (hs : s ≤ d + 27) :
    subDays ⟨y, m, d⟩ s =
      if 1 < m then ⟨y, m - 1, daysInMonth y (m - 1) - (s - d)⟩
      else ⟨y - 1, 12, daysInMonth (y - 1) 12 - (s - d)⟩ := by
  rw [subDays]
  rw [show predDate^[s] (⟨y, m, d⟩ : Date)
      = predDate^[s - d] (predDate^[1] (predDate^[d - 1] ⟨y, m, d⟩)) from by
    rw [← Function.iterate_add_apply, ← Function.iterate_add_apply]
    congr 1
    omega]
  rw [show predDate^[d - 1] ⟨y, m, d⟩ = ⟨y, m, d - (d - 1)⟩ from iterPred_same_month (by omega)]
  rw [show (⟨y, m, d - (d - 1)⟩ : Date) = ⟨y, m, 1⟩ from by congr 1; omega]
  rw [Function.iterate_one, predDate_first hm (by omega)]
  split
  · exact iterPred_same_month (k := s - d) (y := y) (m := m - 1) (d := daysInMonth y (m - 1))
      (by have := daysInMonth_ge y (m - 1); omega)
  · exact iterPred_same_month (k := s - d) (y := y - 1) (m := 12) (d := daysInMonth (y - 1) 12)
      (by have := daysInMonth_ge (y - 1) 12; omega)

/-! ### Lemmas about the deletion passes -/

theorem deleteAll_eq (fail : Str → Bool) (ks : List Str) :
    deleteAll fail ks = ⟨ks.takeWhile (fun k => !fail k), !ks.any fail⟩ := by
  induction ks with
  | nil => rfl
  | cons k ks ih =>
    unfold deleteAll
    by_cases h : fail k
    · rw [if_pos h]
      simp [List.takeWhile_cons, h]
    · rw [if_neg h]
      rw [ih]
      simp [List.takeWhile_cons, h]

/-- Closed form of `delete_keys_last_weeks`: the keys after the first listed
object are deleted up to (excluding) the first failing delete, and the pass
raises exactly when some marked delete fails. -/
theorem delete_keys_last_weeks_eq (fail : Str → Bool) (keys : List Str) :
    delete_keys_last_weeks fail keys =
      ⟨(keys.drop 1).takeWhile (fun k => !fail k), !(keys.drop 1).any fail⟩ := by
  cases keys with
  | nil => rfl
  | cons a rest =>
    show deleteAll fail rest = _
    rw [deleteAll_eq]
    simp

theorem delete_keys_last_weeks_noFail (keys : List Str) :
    delete_keys_last_weeks noFail keys = ⟨keys.drop 1, true⟩ := by
  rw [delete_keys_last_weeks_eq]
  simp [noFail]

theorem weeks_deleted_mem {fail : Str → Bool} {keys : List Str} {k : Str}
    (h : k ∈ (delete_keys_last_weeks fail keys).deleted) : k ∈ keys.drop 1 := by
  rw [delete_keys_last_weeks_eq] at h
  exact (List.takeWhile_sublist _).mem h

theorem months_deleted_mem {fail : Str → Bool} {dw : Str} :
    ∀ {ks : List Str} {k : Str}, k ∈ (delete_keys_last_months fail dw ks).deleted →
      k ∈ ks ∧ ∃ dt, parseKeyDate k = some dt ∧ weekdayName dt ≠ dw := by
  intro ks
  induction ks with
  | nil =>
    intro k h
    simp [delete_keys_last_months] at h
  | cons a ks ih =>
    intro k h
    unfold delete_keys_last_months at h
    cases hpd : parseKeyDate a with
    | none =>
      rw [hpd] at h
      simp at h
    | some dt =>
      rw [hpd] at h
      simp only at h
      by_cases hw : weekdayName dt = dw
      · rw [if_pos hw] at h
        obtain ⟨hmem, hrest⟩ := ih h
        exact ⟨List.mem_cons_of_mem _ hmem, hrest⟩
      · rw [if_neg hw] at h
        by_cases hf : fail a
        · rw [if_pos hf] at h
          simp at h
        · rw [if_neg hf] at h
          simp only at h
          rcases List.mem_cons.mp h with rfl | h
          · exact ⟨List.mem_cons_self _ _, dt, hpd, hw⟩
          · obtain ⟨hmem, hrest⟩ := ih h
            exact ⟨List.mem_cons_of_mem _ hmem, hrest⟩

theorem months_unparseable {fail : Str → Bool} {dw : Str} :
    ∀ {ks : List Str} {k : Str}, k ∈ ks → parseKeyDate k = none →
      (delete_keys_last_months fail dw ks).ok = false ∧
        k ∉ (delete_keys_last_months fail dw ks).deleted := by
  intro ks
  induction ks with
  | nil =>
    intro k hk
    cases hk
  | cons a ks ih =>
    intro k hk hp
    unfold delete_keys_last_months
    cases hpd : parseKeyDate a with
    | none =>
      exact ⟨rfl, by simp⟩
    | some dt =>
      simp only
      have hka : k ≠ a := by
        intro he
        rw [he, hpd] at hp
        cases hp
      have hk' : k ∈ ks := by
        rcases List.mem_cons.mp hk with rfl | hk'
        · exact absurd rfl hka
        · exact hk'
      by_cases hw : weekdayName dt = dw
      · rw [if_pos hw]
        exact ih hk' hp
      · rw [if_neg hw]
        by_cases hf : fail a
        · rw [if_pos hf]
          exact ⟨rfl, by simp⟩
        · rw [if_neg hf]
          obtain ⟨hok, hnm⟩ := ih hk' hp
          refine ⟨hok, ?_⟩
          intro hmem
          rcases List.mem_cons.mp hmem with he | hmem
          · exact hka he
          · exact hnm hmem

/-- With every key parseable and no delete failures, the months pass deletes
exactly the listed keys whose weekday is not the designated one. -/
theorem months_all_parse {dw : Str} :
    ∀ {ks : List Str}, (∀ k ∈ ks, (parseKeyDate k).isSome = true) →
      delete_keys_last_months noFail dw ks =
        ⟨ks.filter (fun k =>
          match parseKeyDate k with
          | some dt => decide (weekdayName dt ≠ dw)
          | none => false), true⟩ := by
  intro ks
  induction ks with
  | nil => intro _; rfl
  | cons a ks ih =>
    intro hp
    have ha := hp a (List.mem_cons_self a ks)
    obtain ⟨dt, hpd⟩ := Option.isSome_iff_exists.mp ha
    unfold delete_keys_last_months
    rw [hpd]
    simp only
    have hrec := ih (fun k hk => hp k (List.mem_cons_of_mem _ hk))
    by_cases hw : weekdayName dt = dw
    · rw [if_pos hw, hrec]
      rw [List.filter_cons]
      rw [show (match parseKeyDate a with
          | some dt => decide (weekdayName dt ≠ dw)
          | none => false) = false from by rw [hpd]; simp [hw]]
      simp
    · rw [if_neg hw]
      rw [show noFail a = false from rfl, if_neg (by simp)]
      rw [hrec]
      rw [List.filter_cons]
      rw [show (match parseKeyDate a with
          | some dt => decide (weekdayName dt ≠ dw)
          | none => false) = true from by rw [hpd]; simp [hw]]
      simp

/-! ### The single-database `clean_up` run, destructed -/

theorem pathTemplate_nil_append (host name file : Str) :
    pathTemplate [] host name file = pathTemplate [] host name [] ++ file := by
  simp [pathTemplate]

theorem pathTemplate_cons (host name file : Str) :
    pathTemplate [] host name file = ('/' :: host ++ '/' :: name) ++ '/' :: file := by
  simp [pathTemplate]

theorem pathTemplate_pfx_iff (host name a b : Str) :
    pathTemplate [] host name a <+: pathTemplate [] host name b ↔ a <+: b := by
  rw [pathTemplate_nil_append, pathTemplate_nil_append host name b]
  exact List.prefix_append_right_inj _

/-- Any key the single-database run deletes came from the store and lies in one
of the two prefix-scoped listings; a key deleted by the months pass moreover
parses to a date off the designated weekday. -/
theorem clean_up_singleton_cases {host name dw : Str} {store : List Str} {now : Date} {key : Str}
    (h : key ∈ (clean_up noFail [(host, name)] dw now store).deleted) :
    key ∈ store ∧
      (pathTemplate [] host name (ymdStr (subDays now 7)) <+: key ∨
       (pathTemplate [] host name (ymStr (subDays now 28)) <+: key ∧
        ∃ dt, parseKeyDate key = some dt ∧ weekdayName dt ≠ dw)) := by
  unfold clean_up cleanUpDbs at h
  simp only at h
  rw [if_neg (by simp)] at h
  rw [delete_keys_last_weeks_noFail] at h
  simp only at h
  rw [if_neg (by simp)] at h
  unfold cleanUpDbs at h
  simp only [List.nil_append] at h
  rcases List.mem_append.mp h with h | h
  · have hlst : key ∈ (store.filter
        ((pathTemplate [] host name (ymdStr (subDays now 7))).isPrefixOf ·)) :=
      (List.drop_subset 1 _) h
    have := List.mem_filter.mp hlst
    exact ⟨this.1, Or.inl (List.isPrefixOf_iff_prefix.mp this.2)⟩
  · obtain ⟨hmem, dt, hpd, hw⟩ := months_deleted_mem h
    have h1 := List.mem_filter.mp hmem
    have h2 := List.mem_filter.mp h1.1
    exact ⟨h2.1, Or.inr ⟨List.isPrefixOf_iff_prefix.mp h1.2, dt, hpd, hw⟩⟩

/-- Any valid date in the calendar month of `now - 28 days` is at least 7 days
old when `now`'s day-of-month lies in `7..28`. -/
theorem tier3_month_age {now cd : Date} (hval : now.Valid) (hyear : 29 ≤ now.year)
    (h7 : 7 ≤ now.day) (h28 : now.day ≤ 28) (hcdv : cd.Valid)
    (hyr : cd.year = (subDays now 28).year) (hmo : cd.month = (subDays now 28).month) :
    toOrdinal cd + 7 ≤ toOrdinal now := by
  obtain ⟨hv1, hv2, hv3, hv4, hv5⟩ := hval
  obtain ⟨y, m, d⟩ := now
  simp only at hv1 hv2 hv3 hv4 hv5 hyear h7 h28
  rw [subDays_cross hv2 (by omega) (by omega) h28 (by omega)] at hyr hmo
  obtain ⟨hc1, hc2, hc3, hc4, hc5⟩ := hcdv
  by_cases hm1 : 1 < m
  · rw [if_pos hm1] at hyr hmo
    simp only at hyr hmo
    have hday : cd.day ≤ daysInMonth y (m - 1) := by
      rw [hyr, hmo] at hc5
      exact hc5
    have hsucc := daysBeforeMonth_succ y (m - 1) (by omega)
    rw [show m - 1 + 1 = m from by omega] at hsucc
    have hcd : toOrdinal cd = daysBeforeYear y + daysBeforeMonth y (m - 1) + cd.day := by
      unfold toOrdinal
      rw [hyr, hmo]
    have hnow : toOrdinal ⟨y, m, d⟩ = daysBeforeYear y + daysBeforeMonth y m + d := rfl
    omega
  · have hm0 : m = 1 := by omega
    subst hm0
    rw [if_neg hm1] at hyr hmo
    simp only at hyr hmo
    have hday : cd.day ≤ daysInMonth (y - 1) 12 := by
      rw [hyr, hmo] at hc5
      exact hc5
    have hjan : (⟨y, 1, 1⟩ : Date).Valid := by
      refine ⟨?_, ?_, ?_, ?_, ?_⟩
      · show 1 ≤ y
        omega
      · show (1 : Nat) ≤ 1
        omega
      · show (1 : Nat) ≤ 12
        omega
      · show (1 : Nat) ≤ 1
        omega
      · show 1 ≤ daysInMonth y 1
        have := daysInMonth_ge y 1
        omega
    have hpred := toOrdinal_predDate hjan (by show 2 ≤ y; omega)
    rw [predDate_first (by omega) (by omega)] at hpred
    rw [if_neg (by omega)] at hpred
    rw [toOrdinal_mk, toOrdinal_mk] at hpred
    have hjan0 : daysBeforeMonth y 1 = 0 := rfl
    have hcd : toOrdinal cd = daysBeforeYear (y - 1) + daysBeforeMonth (y - 1) 12 + cd.day := by
      unfold toOrdinal
      rw [hyr, hmo]
    have hnow : toOrdinal ⟨y, 1, d⟩ = daysBeforeYear y + daysBeforeMonth y 1 + d := rfl
    omega

/-- Claim C1 (amended): when `now`'s day-of-month lies in `7..28`, every key the
single-group retention run deletes parses (if at all) to a date at least 7 days
before `now` — the tier-1 recent window is respected. (As stated originally the
claim is false: outside that day-of-month range the tier-3 month listing can
contain, and delete, artifacts under 7 days old; see the counterexample.) -/
theorem claim_C1 (host name dw : Str) (store : List Str) (now : Date) (key : Str) (cd : Date)
    (hval : now.Valid) (hyear : 29 ≤ now.year) (h7 : 7 ≤ now.day) (h28 : now.day ≤ 28)
    (hwf : ∀ k ∈ store, ∃ fn, k = pathTemplate [] host name fn ∧ '/' ∉ fn)
    (hdel : key ∈ (clean_up noFail [(host, name)] dw now store).deleted)
    (hparse : parseKeyDate key = some cd) :
    toOrdinal cd + 7 ≤ toOrdinal now := by
  obtain ⟨hkey, hcase⟩ := clean_up_singleton_cases hdel
  obtain ⟨fn, rfl, hfn⟩ := hwf key hkey
  rcases hcase with hpfx | ⟨hpfx, dt, hpd, hwk⟩
  · have hpfx' : ymdStr (subDays now 7) <+: fn := (pathTemplate_pfx_iff host name _ fn).mp hpfx
    have hB7v := subDays_valid hval (k := 7) (by omega)
    rw [pathTemplate_cons] at hparse
    have hcd := parseKeyDate_pfx_ymd hfn hB7v.1 hpfx' hparse
    subst hcd
    have hord := toOrdinal_subDays hval (k := 7) (by omega)
    omega
  · have hpfx' : ymStr (subDays now 28) <+: fn := (pathTemplate_pfx_iff host name _ fn).mp hpfx
    rw [pathTemplate_cons] at hparse
    have hym := parseKeyDate_pfx_ym hfn hpfx' hparse
    have hcdv := parseKeyDate_valid hparse
    exact tier3_month_age hval hyear h7 h28 hcdv hym.1 hym.2

/-- Counterexample to claim C1 as stated: with `now = 2024-03-01` the tier-3
month listing is `2024-02-`, which contains the artifact of `2024-02-29` —
only one day old — and the run deletes it (its weekday, Thursday, is not the
designated `일`/Sunday). -/
theorem claim_C1_counterexample :
    ("/h/db/2024-02-29_01:00:00.gz".toList ∈
      (clean_up noFail [("h".toList, "db".toList)] ['일'] ⟨2024, 3, 1⟩
        ["/h/db/2024-02-25_01:00:00.gz".toList,
         "/h/db/2024-02-29_01:00:00.gz".toList]).deleted) ∧
    parseKeyDate "/h/db/2024-02-29_01:00:00.gz".toList = some ⟨2024, 2, 29⟩ ∧
    toOrdinal ⟨2024, 3, 1⟩ < toOrdinal ⟨2024, 2, 29⟩ + 7 := by
  decide

/-- Witness instantiating `claim_C1` at a concrete run. -/
theorem claim_C1_witness : toOrdinal ⟨2024, 2, 20⟩ + 7 ≤ toOrdinal ⟨2024, 3, 15⟩ :=
  claim_C1 "h".toList "db".toList ['일']
    ["/h/db/2024-02-20_01:00:00.gz".toList] ⟨2024, 3, 15⟩
    "/h/db/2024-02-20_01:00:00.gz".toList ⟨2024, 2, 20⟩
    (by decide) (by decide) (by decide) (by decide)
    (by
      intro k hk
      rw [List.mem_singleton] at hk
      subst hk
      exact ⟨"2024-02-20_01:00:00.gz".toList, by decide, by decide⟩)
    (by decide) (by decide)

theorem pad2_ne_nil (n : Nat) : pad2 n ≠ [] := by
  unfold pad2
  split
  · simp
  · exact natDigits_ne_nil n

/-- Claim C2: on the day-prefix listing of any `(host, name)` group the weeks
pass deletes exactly everything after the first listed object, so with unique
keys precisely the first object of the listing survives the pass. -/
theorem claim_C2 (host name : Str) (store : List Str) (day : Date) (listing : List Str)
    (hnd : store.Nodup)
    (hlist : listing = store.filter ((pathTemplate [] host name (ymdStr day)).isPrefixOf ·)) :
    (delete_keys_last_weeks noFail listing).deleted = listing.drop 1 ∧
    listing.filter (fun k => decide (k ∉ (delete_keys_last_weeks noFail listing).deleted))
      = listing.take 1 := by
  have hlnd : listing.Nodup := by
    rw [hlist]
    exact hnd.filter _
  rw [delete_keys_last_weeks_noFail]
  refine ⟨rfl, ?_⟩
  cases listing with
  | nil => rfl
  | cons a t =>
    simp only [List.drop_succ_cons, List.drop_zero, List.take_succ_cons, List.take_zero]
    rw [List.filter_cons]
    have hat : a ∉ t := (List.nodup_cons.mp hlnd).1
    rw [show decide (a ∉ t) = true from by simpa using hat]
    simp only [if_true]
    have : t.filter (fun k => decide (k ∉ t)) = [] := by
      rw [List.filter_eq_nil_iff]
      intro k hk
      simp [hk]
    rw [this]

/-- Witness instantiating `claim_C2` at a concrete listing. -/
theorem claim_C2_witness :
    (delete_keys_last_weeks noFail
      ["/h/db/2024-03-08_00:00:00.gz".toList, "/h/db/2024-03-08_06:00:00.gz".toList]).deleted
      = ["/h/db/2024-03-08_06:00:00.gz".toList] ∧
    (["/h/db/2024-03-08_00:00:00.gz".toList, "/h/db/2024-03-08_06:00:00.gz".toList].filter
      (fun k => decide (k ∉ (delete_keys_last_weeks noFail
        ["/h/db/2024-03-08_00:00:00.gz".toList, "/h/db/2024-03-08_06:00:00.gz".toList]).deleted)))
      = ["/h/db/2024-03-08_00:00:00.gz".toList] :=
  claim_C2 "h".toList "db".toList
    ["/h/db/2024-03-08_00:00:00.gz".toList, "/h/db/2024-03-08_06:00:00.gz".toList]
    ⟨2024, 3, 8⟩
    ["/h/db/2024-03-08_00:00:00.gz".toList, "/h/db/2024-03-08_06:00:00.gz".toList]
    (by decide) (by decide)

/-- Claim C3 (amended): among the keys the tier-3 month listing actually
contains (all parseable, deletes succeeding), a key survives the months pass
exactly when its parsed weekday is the designated weekday. (As stated
originally the claim is false: artifacts older than the listed month are never
evaluated and survive regardless of weekday; see the counterexample.) -/
theorem claim_C3 (dw : Str) (keys : List Str) (k : Str) (dt : Date)
    (hparse : ∀ x ∈ keys, (parseKeyDate x).isSome = true)
    (hk : k ∈ keys) (hdt : parseKeyDate k = some dt) :
    (delete_keys_last_months noFail dw keys).ok = true ∧
    (k ∉ (delete_keys_last_months noFail dw keys).deleted ↔ weekdayName dt = dw) := by
  rw [months_all_parse hparse]
  refine ⟨rfl, ?_⟩
  constructor
  · intro hnm
    by_contra hne
    exact hnm (List.mem_filter.mpr ⟨hk, by rw [hdt]; simpa using hne⟩)
  · intro heq hmem
    have := (List.mem_filter.mp hmem).2
    rw [hdt] at this
    simp at this
    exact this heq

/-- Counterexample to claim C3 as stated: with `now = 2024-03-15` the tier-3
pass lists only `2024-02-`; the Wednesday artifact of `2024-01-10` is older
than the mid-window boundary `2024-02-16` and its weekday is not the
designated `일`, yet the whole run leaves it untouched. -/
theorem claim_C3_counterexample :
    (clean_up noFail [("h".toList, "db".toList)] ['일'] ⟨2024, 3, 15⟩
      ["/h/db/2024-01-10_03:00:00.gz".toList]).deleted = [] ∧
    (clean_up noFail [("h".toList, "db".toList)] ['일'] ⟨2024, 3, 15⟩
      ["/h/db/2024-01-10_03:00:00.gz".toList]).store
      = ["/h/db/2024-01-10_03:00:00.gz".toList] ∧
    parseKeyDate "/h/db/2024-01-10_03:00:00.gz".toList = some ⟨2024, 1, 10⟩ ∧
    weekdayName ⟨2024, 1, 10⟩ ≠ ['일'] ∧
    toOrdinal ⟨2024, 1, 10⟩ < toOrdinal (subDays ⟨2024, 3, 15⟩ 28) := by
  decide

/-- Witness instantiating `claim_C3` at a concrete listing. -/
theorem claim_C3_witness :
    (delete_keys_last_months noFail ['일'] ["/h/db/2024-02-18_01:00:00.gz".toList]).ok = true ∧
    ("/h/db/2024-02-18_01:00:00.gz".toList ∉
      (delete_keys_last_months noFail ['일'] ["/h/db/2024-02-18_01:00:00.gz".toList]).deleted ↔
      weekdayName ⟨2024, 2, 18⟩ = ['일']) :=
  claim_C3 ['일'] ["/h/db/2024-02-18_01:00:00.gz".toList]
    "/h/db/2024-02-18_01:00:00.gz".toList ⟨2024, 2, 18⟩
    (by decide) (by decide) (by decide)

/-- Claim C4 (amended): a key whose filename does not parse is never itself
deleted, but instead of being skipped it makes the months pass raise
`ValueError` (`ok = false`), aborting the pass. (As stated the claim is false:
the run does crash; see the counterexample.) -/
theorem claim_C4 (fail : Str → Bool) (dw : Str) (keys : List Str) (k : Str)
    (hk : k ∈ keys) (hp : parseKeyDate k = none) :
    (delete_keys_last_months fail dw keys).ok = false ∧
      k ∉ (delete_keys_last_months fail dw keys).deleted :=
  months_unparseable hk hp

/-- Counterexample to claim C4 as stated: one unparseable key inside the
month listing makes the whole `clean_up` run raise (`ok = false`) instead of
skipping it. -/
theorem claim_C4_counterexample :
    parseKeyDate "/h/db/2024-02-garbage.gz".toList = none ∧
    (clean_up noFail [("h".toList, "db".toList)] ['일'] ⟨2024, 3, 15⟩
      ["/h/db/2024-02-garbage.gz".toList]).ok = false ∧
    (clean_up noFail [("h".toList, "db".toList)] ['일'] ⟨2024, 3, 15⟩
      ["/h/db/2024-02-garbage.gz".toList]).deleted = [] := by
  decide

/-- Witness instantiating `claim_C4` at a concrete listing. -/
theorem claim_C4_witness :
    (delete_keys_last_months noFail ['일'] ["/h/db/2024-02-garbage.gz".toList]).ok = false ∧
      "/h/db/2024-02-garbage.gz".toList ∉
        (delete_keys_last_months noFail ['일'] ["/h/db/2024-02-garbage.gz".toList]).deleted :=
  claim_C4 noFail ['일'] ["/h/db/2024-02-garbage.gz".toList]
    "/h/db/2024-02-garbage.gz".toList (by decide) (by decide)

/-- Claim C6 (amended): a failing delete aborts the weeks pass at once — the
pass deletes only the marked keys listed before the first failing one, raises
(`ok = false`) exactly when some marked delete fails, and nothing is collected
or continued. (As stated the claim is false: deletion is not best-effort; see
the counterexample.) -/
theorem claim_C6 (fail : Str → Bool) (keys : List Str) :
    delete_keys_last_weeks fail keys =
      ⟨(keys.drop 1).takeWhile (fun k => !fail k), !(keys.drop 1).any fail⟩ :=
  delete_keys_last_weeks_eq fail keys

/-- Counterexample to claim C6 as stated: when the delete of the second marked
key fails, the third marked key is not deleted and the run raises — a run with
no failures would have deleted it. -/
theorem claim_C6_counterexample :
    (clean_up (fun k => k == "/h/db/2024-03-08_06:00:00.gz".toList)
      [("h".toList, "db".toList)] ['일'] ⟨2024, 3, 15⟩
      ["/h/db/2024-03-08_00:00:00.gz".toList, "/h/db/2024-03-08_06:00:00.gz".toList,
       "/h/db/2024-03-08_12:00:00.gz".toList]).ok = false ∧
    "/h/db/2024-03-08_12:00:00.gz".toList ∉
      (clean_up (fun k => k == "/h/db/2024-03-08_06:00:00.gz".toList)
        [("h".toList, "db".toList)] ['일'] ⟨2024, 3, 15⟩
        ["/h/db/2024-03-08_00:00:00.gz".toList, "/h/db/2024-03-08_06:00:00.gz".toList,
         "/h/db/2024-03-08_12:00:00.gz".toList]).deleted ∧
    "/h/db/2024-03-08_12:00:00.gz".toList ∈
      (clean_up noFail [("h".toList, "db".toList)] ['일'] ⟨2024, 3, 15⟩
        ["/h/db/2024-03-08_00:00:00.gz".toList, "/h/db/2024-03-08_06:00:00.gz".toList,
         "/h/db/2024-03-08_12:00:00.gz".toList]).deleted := by
  decide

/-- If a `%Y-%m-` month rendering and a `%Y-%m-%d` day rendering are
prefix-comparable, the two dates share year and month. -/
theorem ym_ymd_overlap {A B : Date} (h : ymStr A <+: ymdStr B ∨ ymdStr B <+: ymStr A) :
    A.year = B.year ∧ A.month = B.month := by
  have hymA : ymStr A = natDigits A.year ++ '-' :: (pad2 A.month ++ '-' :: []) := by
    simp [ymStr]
  have hymdB : ymdStr B = natDigits B.year ++ '-' :: (pad2 B.month ++ '-' :: pad2 B.day) := by
    simp [ymdStr]
  rcases h with h | h
  · rw [hymA, hymdB] at h
    obtain ⟨h1, h2⟩ := append_sep_pfx (dash_not_mem_natDigits _) (dash_not_mem_natDigits _) h
    obtain ⟨h3, -⟩ := append_sep_pfx (dash_not_mem_pad2 _) (dash_not_mem_pad2 _) h2
    exact ⟨natDigits_inj h1, pad2_inj h3⟩
  · rw [hymA, hymdB] at h
    obtain ⟨h1, h2⟩ := append_sep_pfx (dash_not_mem_natDigits _) (dash_not_mem_natDigits _) h
    obtain ⟨h3, -⟩ := append_sep_pfx (dash_not_mem_pad2 _) (dash_not_mem_pad2 _) h2
    exact ⟨(natDigits_inj h1).symm, (pad2_inj h3).symm⟩

/-- Claim C5 (amended): when `now`'s day-of-month lies in `8..28`, no key can
match both the tier-2 day prefix (`now - 7 days`) and the tier-3 month prefix
(`now - 28 days`) of the same group, so the two prefix-scoped listings are
disjoint. (As stated for all `now` the claim is false: when the day-of-month
is ≤ 7 or ≥ 29 the day `now - 7 days` falls inside the calendar month of
`now - 28 days` and its keys appear in both listings; see the
counterexample.) -/
theorem claim_C5 (host name : Str) (now : Date) (key : Str)
    (hval : now.Valid) (hy2 : 2 ≤ now.year) (h8 : 8 ≤ now.day) (h28 : now.day ≤ 28) :
    ¬(pathTemplate [] host name (ymdStr (subDays now 7)) <+: key ∧
      pathTemplate [] host name (ymStr (subDays now 28)) <+: key) := by
  rintro ⟨hw, hm⟩
  have hcomp := List.prefix_or_prefix_of_prefix hm hw
  have hcancel : ymStr (subDays now 28) <+: ymdStr (subDays now 7) ∨
      ymdStr (subDays now 7) <+: ymStr (subDays now 28) := by
    rcases hcomp with hc | hc
    · exact Or.inl ((pathTemplate_pfx_iff host name _ _).mp hc)
    · exact Or.inr ((pathTemplate_pfx_iff host name _ _).mp hc)
  have heq := ym_ymd_overlap hcancel
  obtain ⟨hv1, hv2, hv3, hv4, hv5⟩ := hval
  obtain ⟨y, m, d⟩ := now
  simp only at hv1 hv2 hv3 hv4 hv5 hy2 h8 h28
  rw [subDays_lt (show 7 < d from by omega)] at heq
  rw [subDays_cross hv2 hy2 (by omega) h28 (by omega)] at heq
  by_cases hm1 : 1 < m
  · rw [if_pos hm1] at heq
    simp only at heq
    omega
  · rw [if_neg hm1] at heq
    simp only at heq
    omega

/-- Counterexample to claim C5 as stated: with `now = 2024-03-29` the tier-2
day prefix is `2024-03-22` and the tier-3 month prefix is `2024-03-`; the key
of `2024-03-22` appears in both listings, survives the weeks pass as the first
listed object, and is then deleted by the months pass (Friday ≠ `일`). -/
theorem claim_C5_counterexample :
    (["/h/db/2024-03-22_05:00:00.gz".toList].filter
      ((pathTemplate [] "h".toList "db".toList (ymdStr (subDays ⟨2024, 3, 29⟩ 7))).isPrefixOf ·))
      = ["/h/db/2024-03-22_05:00:00.gz".toList] ∧
    (["/h/db/2024-03-22_05:00:00.gz".toList].filter
      ((pathTemplate [] "h".toList "db".toList (ymStr (subDays ⟨2024, 3, 29⟩ 28))).isPrefixOf ·))
      = ["/h/db/2024-03-22_05:00:00.gz".toList] ∧
    (clean_up noFail [("h".toList, "db".toList)] ['일'] ⟨2024, 3, 29⟩
      ["/h/db/2024-03-22_05:00:00.gz".toList]).deleted
      = ["/h/db/2024-03-22_05:00:00.gz".toList] := by
  decide

/-- Witness instantiating `claim_C5` at a concrete key and date. -/
theorem claim_C5_witness :
    ¬(pathTemplate [] "h".toList "db".toList (ymdStr (subDays ⟨2024, 3, 15⟩ 7)) <+:
        "/h/db/2024-03-08_00:00:00.gz".toList ∧
      pathTemplate [] "h".toList "db".toList (ymStr (subDays ⟨2024, 3, 15⟩ 28)) <+:
        "/h/db/2024-03-08_00:00:00.gz".toList) :=
  claim_C5 "h".toList "db".toList ⟨2024, 3, 15⟩ "/h/db/2024-03-08_00:00:00.gz".toList
    (by decide) (by decide) (by decide) (by decide)

/-- Frame property of the `clean_up` loop: a stored key matching none of the
per-database prefixes is never touched. -/
theorem cleanUpDbs_frame (fail : Str → Bool) (dw wPfxFile mPfxFile : Str) :
    ∀ (dbs : List (Str × Str)) (st : CleanState) (key : Str),
      key ∈ st.store →
      (∀ p ∈ dbs, (pathTemplate [] p.1 p.2 wPfxFile).isPrefixOf key = false ∧
                  (pathTemplate [] p.1 p.2 mPfxFile).isPrefixOf key = false) →
      key ∈ (cleanUpDbs fail dw wPfxFile mPfxFile dbs st).store ∧
      (key ∉ st.deleted → key ∉ (cleanUpDbs fail dw wPfxFile mPfxFile dbs st).deleted) := by
  intro dbs
  induction dbs with
  | nil =>
    intro st key hk _
    exact ⟨hk, fun h' => h'⟩
  | cons p rest ih =>
    obtain ⟨host, name⟩ := p
    intro st key hk hout
    have hp := hout (host, name) (List.mem_cons_self _ _)
    have hrest : ∀ q ∈ rest, (pathTemplate [] q.1 q.2 wPfxFile).isPrefixOf key = false ∧
        (pathTemplate [] q.1 q.2 mPfxFile).isPrefixOf key = false :=
      fun q hq => hout q (List.mem_cons_of_mem _ hq)
    unfold cleanUpDbs
    by_cases hok : st.ok = false
    · rw [if_pos hok]
      exact ⟨hk, fun h' => h'⟩
    · rw [if_neg hok]
      simp only
      generalize hR1 : delete_keys_last_weeks fail
        (st.store.filter ((pathTemplate [] host name wPfxFile).isPrefixOf ·)) = r1
      have hkw : key ∉ r1.deleted := by
        rw [← hR1]
        intro hmem
        have hdm := weeks_deleted_mem hmem
        have hfil := List.mem_filter.mp ((List.drop_subset 1 _) hdm)
        rw [hp.1] at hfil
        cases hfil.2
      have hstore1 : key ∈ st.store.filter (fun k => decide (k ∉ r1.deleted)) :=
        List.mem_filter.mpr ⟨hk, by simpa using hkw⟩
      by_cases hr1 : r1.ok = false
      · rw [if_pos hr1]
        exact ⟨hstore1, fun hnd hmem => (List.mem_append.mp hmem).elim hnd hkw⟩
      · rw [if_neg hr1]
        generalize hR2 : delete_keys_last_months fail dw
          ((st.store.filter (fun k => decide (k ∉ r1.deleted))).filter
            ((pathTemplate [] host name mPfxFile).isPrefixOf ·)) = r2
        have hkm : key ∉ r2.deleted := by
          rw [← hR2]
          intro hmem
          obtain ⟨hmem', -⟩ := months_deleted_mem hmem
          have hfil := List.mem_filter.mp hmem'
          rw [hp.2] at hfil
          cases hfil.2
        have hstore2 : key ∈ (st.store.filter (fun k => decide (k ∉ r1.deleted))).filter
            (fun k => decide (k ∉ r2.deleted)) :=
          List.mem_filter.mpr ⟨hstore1, by simpa using hkm⟩
        have hih := ih ⟨(st.store.filter (fun k => decide (k ∉ r1.deleted))).filter
            (fun k => decide (k ∉ r2.deleted)),
            (st.deleted ++ r1.deleted) ++ r2.deleted, r2.ok⟩ key hstore2 hrest
        refine ⟨hih.1, ?_⟩
        intro hnd
        refine hih.2 ?_
        intro hmem
        rcases List.mem_append.mp hmem with hmem | hmem
        · rcases List.mem_append.mp hmem with hmem | hmem
          · exact hnd hmem
          · exact hkw hmem
        · exact hkm hmem

/-- Claim C9: any stored key that matches neither the tier-2 day prefix nor the
tier-3 month prefix of any configured database is left in the store and never
deleted by `clean_up`, whatever the delete-failure pattern. -/
theorem claim_C9 (fail : Str → Bool) (databases : List (Str × Str)) (dw : Str) (now : Date)
    (store : List Str) (key : Str)
    (hkey : key ∈ store)
    (hout : ∀ p ∈ databases,
      (pathTemplate [] p.1 p.2 (ymdStr (subDays now 7))).isPrefixOf key = false ∧
      (pathTemplate [] p.1 p.2 (ymStr (subDays now 28))).isPrefixOf key = false) :
    key ∈ (clean_up fail databases dw now store).store ∧
      key ∉ (clean_up fail databases dw now store).deleted := by
  have h := cleanUpDbs_frame fail dw (ymdStr (subDays now 7)) (ymStr (subDays now 28))
    databases ⟨store, [], true⟩ key hkey hout
  exact ⟨h.1, h.2 (by simp)⟩

/-- Witness instantiating `claim_C9`: a key outside both prefix scopes
survives a run untouched. -/
theorem claim_C9_witness :
    "/h/db/2024-01-10_03:00:00.gz".toList ∈
      (clean_up noFail [("h".toList, "db".toList)] ['일'] ⟨2024, 3, 15⟩
        ["/h/db/2024-01-10_03:00:00.gz".toList, "/h/db/2024-03-08_00:00:00.gz".toList]).store ∧
    "/h/db/2024-01-10_03:00:00.gz".toList ∉
      (clean_up noFail [("h".toList, "db".toList)] ['일'] ⟨2024, 3, 15⟩
        ["/h/db/2024-01-10_03:00:00.gz".toList, "/h/db/2024-03-08_00:00:00.gz".toList]).deleted :=
  claim_C9 noFail [("h".toList, "db".toList)] ['일'] ⟨2024, 3, 15⟩
    ["/h/db/2024-01-10_03:00:00.gz".toList, "/h/db/2024-03-08_00:00:00.gz".toList]
    "/h/db/2024-01-10_03:00:00.gz".toList (by decide) (by decide)

/-! ### The artifact namer and the engine's parser are inverse (claim C7) -/

theorem colon_not_mem_pad2 (n : Nat) : ':' ∉ pad2 n :=
  not_mem_of_all_digit (pad2_all_digit n) (by decide)

theorem slash_not_mem_nowStr (dt : Date) (t : TimeOfDay) : '/' ∉ nowStr dt t := by
  unfold nowStr
  intro hm
  rcases List.mem_append.mp hm with hm | hm
  · exact not_mem_ymdStr (by decide) (by decide) hm
  · rcases List.mem_cons.mp hm with he | hm
    · cases he
    · exact not_mem_hmsStr (by decide) (by decide) hm

theorem nowStr_has_non_dot (dt : Date) (t : TimeOfDay) : ∃ x ∈ nowStr dt t, x ≠ '.' := by
  obtain ⟨x, hx, hxd⟩ := ymdStr_has_non_dot dt
  exact ⟨x, List.mem_append_left _ hx, hxd⟩

theorem pathTemplate_assoc (b h n f : Str) :
    pathTemplate b h n f = (b ++ '/' :: h ++ '/' :: n) ++ '/' :: f := by
  simp [pathTemplate]

theorem splitOnChar_nowStr (dt : Date) (t : TimeOfDay) :
    splitOnChar '_' (nowStr dt t) = [ymdStr dt, hmsStr t] := by
  unfold nowStr
  rw [splitOnChar_append_sep (not_mem_ymdStr (by decide) (by decide)),
    splitOnChar_of_not_mem (not_mem_hmsStr (by decide) (by decide))]

theorem hmsStr_inj {a b : TimeOfDay} (h : hmsStr a = hmsStr b) : a = b := by
  have ha : hmsStr a = pad2 a.hour ++ ':' :: (pad2 a.minute ++ ':' :: pad2 a.second) := by
    simp [hmsStr]
  have hb : hmsStr b = pad2 b.hour ++ ':' :: (pad2 b.minute ++ ':' :: pad2 b.second) := by
    simp [hmsStr]
  rw [ha, hb] at h
  obtain ⟨h1, h2⟩ := append_sep_eq (colon_not_mem_pad2 _) (colon_not_mem_pad2 _) h
  obtain ⟨h3, h4⟩ := append_sep_eq (colon_not_mem_pad2 _) (colon_not_mem_pad2 _) h2
  obtain ⟨x1, x2, x3⟩ := a
  obtain ⟨y1, y2, y3⟩ := b
  simp only at h1 h3 h4
  simp [pad2_inj h1, pad2_inj h3, pad2_inj h4]

/-- Claim C7 (amended): the retention engine's key decomposition
(`os.path.split`, `os.path.splitext`, `split('_')`, `strptime`) applied to a
key built by the artifact namer (`PATH_TEMPLATE` with `{now}.{ext}`) recovers
the directory `{root}/{host}/{name}`, the creation date and the time field;
together with the injectivity conjunct this recovers `(host, name, timestamp)`
exactly — provided the year has four digits (`1000 ≤ year ≤ 9999`): the namer
prints the year unpadded while `strptime`'s `%Y` requires exactly four digits,
so for earlier years the parser raises `ValueError` instead (see the
counterexample). -/
theorem claim_C7 (root host name ext : Str) (dt : Date) (t : TimeOfDay)
    (hh : '/' ∉ host) (hn : '/' ∉ name) (hne : name ≠ [])
    (hext1 : '/' ∉ ext) (hext2 : '.' ∉ ext)
    (hdv : dt.Valid) (h4 : 1000 ≤ dt.year) (hy : dt.year ≤ 9999) :
    parse_key (makeKey root host name dt t ext)
      = (root ++ '/' :: host ++ '/' :: name, some (dt, hmsStr t)) ∧
    (∀ (host' name' : Str) (dt' : Date) (t' : TimeOfDay), '/' ∉ host' →
      root ++ '/' :: host ++ '/' :: name = root ++ '/' :: host' ++ '/' :: name' →
      (dt, hmsStr t) = (dt', hmsStr t') →
      host = host' ∧ name = name' ∧ dt = dt' ∧ t = t') := by
  constructor
  · have hslashfile : '/' ∉ nowStr dt t ++ '.' :: ext := by
      intro hm
      rcases List.mem_append.mp hm with hm | hm
      · exact slash_not_mem_nowStr dt t hm
      · rcases List.mem_cons.mp hm with he | hm
        · cases he
        · exact hext1 hm
    obtain ⟨n₀, c, hn0⟩ : ∃ n₀ c, name = n₀ ++ [c] := by
      rcases List.eq_nil_or_concat name with h | ⟨n₀, c, h⟩
      · exact absurd h hne
      · exact ⟨n₀, c, by simpa [List.concat_eq_append] using h⟩
    have hc : c ≠ '/' := by
      intro he
      exact hn (by rw [hn0, he]; simp)
    have hkey : makeKey root host name dt t ext
        = ((root ++ '/' :: host ++ '/' :: n₀) ++ [c]) ++ '/' :: (nowStr dt t ++ '.' :: ext) := by
      unfold makeKey
      rw [pathTemplate_assoc, hn0]
      simp
    have hsnd : (posixSplit (makeKey root host name dt t ext)).2 = nowStr dt t ++ '.' :: ext := by
      rw [hkey]
      have := posixSplit_snd (D := (root ++ '/' :: host ++ '/' :: n₀) ++ [c]) hslashfile
      simpa using this
    have hfst : (posixSplit (makeKey root host name dt t ext)).1
        = root ++ '/' :: host ++ '/' :: name := by
      rw [hkey, posixSplit_fst hslashfile hc, hn0]
      simp
    have hroot : splitExtRoot (nowStr dt t ++ '.' :: ext) = nowStr dt t :=
      splitExtRoot_dot (nowStr_has_non_dot dt t) hext2
    unfold parse_key
    simp only
    rw [hsnd, hfst, hroot, splitOnChar_nowStr]
    simp only
    rw [parseDate_ymdStr hdv h4 hy]
  · intro host' name' dt' t' hh' heq hts
    have h1 : ('/' :: host) ++ ('/' :: name) = ('/' :: host') ++ ('/' :: name') :=
      List.append_cancel_left
        (show root ++ (('/' :: host) ++ ('/' :: name))
            = root ++ (('/' :: host') ++ ('/' :: name')) from by
          simpa [List.append_assoc] using heq)
    simp only [List.cons_append, List.cons.injEq, true_and] at h1
    obtain ⟨hhost, hname⟩ := append_sep_eq hh hh' h1
    obtain ⟨hdt, hhms⟩ := Prod.mk.injEq .. |>.mp hts
    exact ⟨hhost, hname, hdt, hmsStr_inj hhms⟩

/-- Witness instantiating `claim_C7` at a concrete artifact. -/
theorem claim_C7_witness :
    parse_key (makeKey [] "h".toList "db".toList ⟨2024, 3, 15⟩ ⟨2, 30, 5⟩ "gz".toList)
      = ([] ++ '/' :: "h".toList ++ '/' :: "db".toList,
         some (⟨2024, 3, 15⟩, hmsStr ⟨2, 30, 5⟩)) ∧
    (∀ (host' name' : Str) (dt' : Date) (t' : TimeOfDay), '/' ∉ host' →
      [] ++ '/' :: "h".toList ++ '/' :: "db".toList
        = [] ++ '/' :: host' ++ '/' :: name' →
      ((⟨2024, 3, 15⟩ : Date), hmsStr ⟨2, 30, 5⟩) = (dt', hmsStr t') →
      "h".toList = host' ∧ "db".toList = name' ∧ (⟨2024, 3, 15⟩ : Date) = dt' ∧
        (⟨2, 30, 5⟩ : TimeOfDay) = t') :=
  claim_C7 [] "h".toList "db".toList "gz".toList ⟨2024, 3, 15⟩ ⟨2, 30, 5⟩
    (by decide) (by decide) (by decide) (by decide) (by decide) (by decide) (by decide)
    (by decide)

/-- Counterexample to claim C7 as stated: the timestamp year 999 names a valid
`datetime.date`, but glibc `%Y` renders it unpadded as `999-01-01_...`, and
`strptime`'s `%Y` requires exactly four digits, so the retention engine's
decomposition raises `ValueError` instead of recovering the timestamp. -/
theorem claim_C7_counterexample :
    (⟨999, 1, 1⟩ : Date).Valid ∧
    (parse_key (makeKey [] "h".toList "db".toList ⟨999, 1, 1⟩ ⟨2, 30, 5⟩ "gz".toList)).2
      = none := by
  constructor
  · decide
  · decide

/-- Claim C8 (amended): the handler returns exactly `{'statusCode': 200,
'body': json.dumps("success")}` when both phases complete without exception
(no notification is attempted then); on any phase exception it makes exactly
one `error_report` call carrying `(now, event, exception)` and re-raises that
same exception — provided the notification call itself does not raise. If
`error_report`'s `urlopen` raises, its exception propagates out of the
`except` block instead, masking the original one, so the unconditional
re-raise stated by the claim is false (see the counterexample). -/
theorem claim_C8 (now event : Str) (bk cu : Except Str Bool) (rep : Except Str Nat) :
    ((∃ b, bk = .ok b) → (∃ c, cu = .ok c) →
      lambda_handler now event bk cu rep = ([], .ok (200, "\"success\"".toList))) ∧
    (∀ e r, bk = .error e → rep = .ok r →
      lambda_handler now event bk cu rep = ([⟨now, event, e⟩], .error e)) ∧
    (∀ b e r, bk = .ok b → cu = .error e → rep = .ok r →
      lambda_handler now event bk cu rep = ([⟨now, event, e⟩], .error e)) ∧
    (∀ e re, bk = .error e → rep = .error re →
      lambda_handler now event bk cu rep = ([⟨now, event, e⟩], .error re)) ∧
    (∀ b e re, bk = .ok b → cu = .error e → rep = .error re →
      lambda_handler now event bk cu rep = ([⟨now, event, e⟩], .error re)) := by
  refine ⟨?_, ?_, ?_, ?_, ?_⟩
  · rintro ⟨b, rfl⟩ ⟨c, rfl⟩
    rfl
  · rintro e r rfl rfl
    rfl
  · rintro b e r rfl rfl rfl
    rfl
  · rintro e re rfl rfl
    rfl
  · rintro b e re rfl rfl rfl
    rfl

/-- Witness instantiating `claim_C8`: the all-success run returns the 200
status object, and a backup failure with a successful notification re-raises
the original exception. -/
theorem claim_C8_witness :
    lambda_handler "n".toList "e".toList (.ok true) (.ok true) (.ok 200)
      = ([], .ok (200, "\"success\"".toList)) ∧
    lambda_handler "n".toList "e".toList (.error "boom".toList) (.ok true) (.ok 200)
      = ([⟨"n".toList, "e".toList, "boom".toList⟩], .error "boom".toList) :=
  ⟨(claim_C8 "n".toList "e".toList (.ok true) (.ok true) (.ok 200)).1
      ⟨true, rfl⟩ ⟨true, rfl⟩,
   (claim_C8 "n".toList "e".toList (.error "boom".toList) (.ok true) (.ok 200)).2.1
      "boom".toList 200 rfl rfl⟩

/-- Counterexample to claim C8 as stated: the backup phase raises `boom`, the
notification call itself raises `netfail`, and the handler propagates
`netfail` — not the original exception `boom`, which is masked. -/
theorem claim_C8_counterexample :
    lambda_handler "n".toList "e".toList (.error "boom".toList) (.ok true)
        (.error "netfail".toList)
      = ([⟨"n".toList, "e".toList, "boom".toList⟩], .error "netfail".toList) ∧
    "netfail".toList ≠ "boom".toList := by
  exact ⟨rfl, by decide⟩

/-- Claim C10: `backup` and `clean_up` return the constant `True` whenever they
complete without raising — their boolean results carry no information — and the
handler reaches its success result exactly when neither phase raised. -/
theorem claim_C10 (uploads : List (Except Str Unit)) (fail : Str → Bool)
    (databases : List (Str × Str)) (dw : Str) (now : Date) (store : List Str)
    (b v : Bool) (now' event : Str) (bk cu : Except Str Bool) (rep : Except Str Nat) :
    (backup_run uploads = .ok b → b = true) ∧
    (clean_up_run fail databases dw now store = .ok v → v = true) ∧
    ((lambda_handler now' event bk cu rep).2.isOk = (bk.isOk && cu.isOk)) := by
  refine ⟨?_, ?_, ?_⟩
  · intro h
    induction uploads with
    | nil =>
      simp [backup_run] at h
      exact h
    | cons u rest ih =>
      cases u with
      | error e =>
        simp [backup_run] at h
      | ok x =>
        exact ih (by simpa [backup_run] using h)
  · intro h
    unfold clean_up_run at h
    split at h
    · simpa using (Except.ok.inj h).symm
    · cases h
  · cases bk with
    | error e => cases rep with
      | error re => rfl
      | ok r => rfl
    | ok x =>
      cases cu with
      | error e => cases rep with
        | error re => rfl
        | ok r => rfl
      | ok y => rfl

/-- Witness instantiating `claim_C10` at a concrete run. -/
theorem claim_C10_witness :
    (true = true) ∧ (true = true) ∧
    ((lambda_handler "n".toList "e".toList (.ok true) (.ok true) (.ok 200)).2.isOk
      = ((Except.ok true : Except Str Bool).isOk && (Except.ok true : Except Str Bool).isOk)) := by
  have h := claim_C10 [] noFail [] ['일'] ⟨2024, 3, 15⟩ [] true true
    "n".toList "e".toList (.ok true) (.ok true) (.ok 200)
  exact ⟨h.1 rfl, h.2.1 rfl, h.2.2⟩
